import Mathlib

/-!
Shallow embedding of the `go-concurrent` repository: the LRU-specialised
concurrent doubly-linked list (`src/lru/list.go`), the LRU cache built on it
(`src/lru/lru.go`), and the general concurrent doubly-linked list
(`src/list.go`).

The Go code is concurrent; the embedding models the sequential (quiescent)
semantics of every operation.  Each `go`-dispatched `insertFront` task is made
explicit as an entry of a per-list FIFO `queue`; running the queued tasks is
the `quiesce` operation.  Per-node mutexes serialise the three-node critical
sections, so each critical section becomes one atomic state transformation.
Pointers are modelled by identifiers (`Nat`), and the pointer graph of the LRU
list is represented by the per-list physical chain `seqs l` (head-to-tail
order) together with the `owner` map for the `e.list` back-pointer; a node's
`prev` pointer is non-nil exactly when the node occurs in some chain.
-/

namespace GoConcurrent

/-! ## LRU-specialised list (`src/lru/list.go`) -/

/-- State of a family of LRU lists (`list` values) sharing `element` nodes.
Elements are identified by `Nat` ids, lists by ids `< nLists`.
`valueOf` is the element's `Value` field (`Option Nat`: the cache stores a
pointer to an `item`, modelled as an item id, and the cleanup worker nils a
popped element's `Value`). -/
structure LruSys where
  nLists : Nat
  nElems : Nat
  /-- `e.list` back-pointer of each element. -/
  owner : Nat → Option Nat
  /-- `e.Value` of each element. -/
  valueOf : Nat → Option Nat
  /-- physical chain of each list, from `head` to `tail` (sentinels omitted). -/
  seqs : Nat → List Nat
  /-- the `len` counter of each list (`int64`, updated atomically). -/
  lenOf : Nat → Int
  /-- the `pendingInsertions` counter of each list. -/
  pendingOf : Nat → Int
  /-- ids of elements whose asynchronous `insertFront` has been dispatched
  (`go l.insertFront(e)`) but has not run yet, in dispatch order. -/
  queue : Nat → List Nat

/-- A fresh family of `nLists` lists created by `newList()`: empty chains,
zero counters, no elements allocated. -/
def lruNew (nLists : Nat) : LruSys :=
  { nLists := nLists
    nElems := 0
    owner := fun _ => none
    valueOf := fun _ => none
    seqs := fun _ => []
    lenOf := fun _ => 0
    pendingOf := fun _ => 0
    queue := fun _ => [] }

/-- The list physically containing `e`, if any.  In the Go code this is
"`e.prev != nil`" (`predecessor` returns non-nil): an element's links are set
exactly while it is linked into some chain. -/
def physIn (s : LruSys) (e : Nat) : Option Nat :=
  (List.range s.nLists).find? (fun l => decide (e ∈ s.seqs l))

/-- `list.remove(e, validateList, newList)` from `src/lru/list.go`:
`predecessor(e)` fails iff `e` is physically detached; optionally validate
`e.list == l`; update the `len` counters when the owner changes
(the `e.list = nil` case cannot dereference under well-formedness, and is
modelled as leaving the counters alone); unlink `e` and set
`e.list = newList`.  Returns whether this call removed `e`. -/
def lruRemove (s : LruSys) (l e : Nat) (validateList : Bool)
    (newList : Option Nat) : LruSys × Bool :=
  match physIn s e with
  | none => (s, false)
  | some P =>
    if validateList && !(s.owner e == some l) then (s, false)
    else
      let lenOf' : Nat → Int :=
        match s.owner e with
        | none => s.lenOf
        | some o =>
          if newList = some o then s.lenOf
          else
            let lenA := Function.update s.lenOf o (s.lenOf o - 1)
            match newList with
            | some t => Function.update lenA t (lenA t + 1)
            | none => lenA
      ({ s with
          lenOf := lenOf'
          seqs := Function.update s.seqs P ((s.seqs P).erase e)
          owner := Function.update s.owner e newList }, true)

/-- One dispatched `insertFront` task of list `l` running: link the element at
the front, set its `list` pointer, decrement `pendingInsertions`. -/
def lruInsertFrontStep (s : LruSys) (l : Nat) : LruSys :=
  match s.queue l with
  | [] => s
  | e :: rest =>
    { s with
        seqs := Function.update s.seqs l (e :: s.seqs l)
        owner := Function.update s.owner e (some l)
        pendingOf := Function.update s.pendingOf l (s.pendingOf l - 1)
        queue := Function.update s.queue l rest }

/-- Run `n` dispatched `insertFront` tasks of list `l` in dispatch order. -/
def lruQuiesceAux : Nat → LruSys → Nat → LruSys
  | 0, s, _ => s
  | n + 1, s, l => lruQuiesceAux n (lruInsertFrontStep s l) l

/-- Quiescence for list `l`: every dispatched `insertFront` has run
(`waitForInsertions` observes `pendingInsertions == 0`). -/
def lruQuiesce (s : LruSys) (l : Nat) : LruSys :=
  lruQuiesceAux (s.queue l).length s l

/-- `list.PushFront(v)`: allocate a detached element (`list` nil), increment
`len` and `pendingInsertions`, dispatch `insertFront`, return the element. -/
def lruPushFront (s : LruSys) (l : Nat) (v : Option Nat) : LruSys × Nat :=
  let e := s.nElems
  ({ s with
      nElems := e + 1
      owner := Function.update s.owner e none
      valueOf := Function.update s.valueOf e v
      lenOf := Function.update s.lenOf l (s.lenOf l + 1)
      pendingOf := Function.update s.pendingOf l (s.pendingOf l + 1)
      queue := Function.update s.queue l (s.queue l ++ [e]) }, e)

/-- `list.MoveToFront(e)`: `remove(e, false, l)`; if this call removed `e`,
dispatch an `insertFront` and return true; otherwise return `e.list == l`. -/
def lruMoveToFront (s : LruSys) (l e : Nat) : LruSys × Bool :=
  let r := lruRemove s l e false (some l)
  if r.2 then
    ({ r.1 with
        pendingOf := Function.update r.1.pendingOf l (r.1.pendingOf l + 1)
        queue := Function.update r.1.queue l (r.1.queue l ++ [e]) }, true)
  else (r.1, r.1.owner e == some l)

/-- `list.PopBack()`: `predecessor(&l.tail)` yields the physically last
element (the head sentinel for an empty chain, returning nil); then
`remove(e, true, nil)`. -/
def lruPopBack (s : LruSys) (l : Nat) : LruSys × Option Nat :=
  match (s.seqs l).getLast? with
  | none => (s, none)
  | some e =>
    let r := lruRemove s l e true none
    (r.1, if r.2 then some e else none)

/-- Well-formedness of an `LruSys` (quiescent-reachable states):
chains have no duplicates, physically linked elements carry the matching
`list` back-pointer, and dispatched-but-unlinked elements are detached. -/
structure LruWF (s : LruSys) : Prop where
  seqNodup : ∀ l, (s.seqs l).Nodup
  seqOwner : ∀ l, ∀ e ∈ s.seqs l, s.owner e = some l
  queueSeq : ∀ l l', ∀ e ∈ s.queue l, e ∉ s.seqs l'

/-- A concrete well-formed one-list state holding a single quiesced element
(element `0` with value `5` linked into list `0`). -/
def lruW1 : LruSys :=
  { nLists := 1
    nElems := 1
    owner := fun e => if e = 0 then some 0 else none
    valueOf := fun e => if e = 0 then some 5 else none
    seqs := fun l => if l = 0 then [0] else []
    lenOf := fun l => if l = 0 then 1 else 0
    pendingOf := fun _ => 0
    queue := fun _ => [] }

/-! ## LRU cache (`src/lru/lru.go`)

The cache's `evict` list is list `0` of a one-list `LruSys` whose element
values are item ids.  `items` (the sharded concurrent map) is an association
list from string key to item id; item ids model `*item` pointers, so the
identity comparison of `RemoveCb` is id equality, and the mutable `item`
records live in `itemOf`.  Keys of type other than `string` are
`GoKey.nonstr`.  A result of `none` from an operation models a Go runtime
panic. -/

/-- A Go `interface{}` key: either a string or some non-string value. -/
inductive GoKey where
  | str (s : String)
  | nonstr (tag : Nat)
deriving DecidableEq

/-- The `item` record: the value type of the cache's map. -/
structure Item where
  key : String
  value : Int
  evictElement : Option Nat
deriving DecidableEq

instance : Inhabited Item := ⟨⟨"", 0, none⟩⟩

/-- State of an `LRU` cache. -/
structure Cache where
  capacity : Int
  /-- the `len` counter (`int64`, updated atomically / by CAS). -/
  clen : Int
  /-- the concurrent map: key to `*item` (an item id), in insertion order. -/
  items : List (String × Nat)
  /-- the mutable `item` records addressed by item ids. -/
  itemOf : Nat → Item
  nItems : Nat
  /-- the `evict` LRU list (its list `0`). -/
  lsys : LruSys
  /-- whether an `onEvict` callback was configured. -/
  onEvictSet : Bool
  /-- invocations of `onEvict`, in order. -/
  evictLog : List (String × Int)
  /-- whether the background `cleanupWorker` was started. -/
  workerStarted : Bool

/-- `cmap.ConcurrentMap.Get`: first binding of the key. -/
def lookupItems : List (String × Nat) → String → Option Nat
  | [], _ => none
  | (k, id) :: rest, key => if k = key then some id else lookupItems rest key

/-- Remove the first binding of `key` (the deletion performed by `RemoveCb`
when its predicate holds). -/
def removeKey : List (String × Nat) → String → List (String × Nat)
  | [], _ => []
  | (k, id) :: rest, key =>
    if k = key then rest else (k, id) :: removeKey rest key

/-- The initialized empty cache built by `NewWithEvict` for a positive size
(before returning, one background `cleanupWorker` is started). -/
def initCache (size : Int) (onEvict : Bool) : Cache :=
  { capacity := size
    clen := 0
    items := []
    itemOf := fun _ => default
    nItems := 0
    lsys := lruNew 1
    onEvictSet := onEvict
    evictLog := []
    workerStarted := true }

/-- `NewWithEvict(size, onEvict)`: rejects `size <= 0` with the error
`"must provide a positive size"`, otherwise returns an initialized empty
cache and starts the cleanup worker. -/
def NewWithEvict (size : Int) (onEvict : Bool) : Except String Cache :=
  if size ≤ 0 then .error "must provide a positive size"
  else .ok (initCache size onEvict)

/-- `LRU.Add(key, value)`.  Non-string keys are rejected with `false`.
Otherwise `Upsert` runs the merge function under the shard lock:
on a map hit the merge executes `valueInMap.(item)`, but the stored value is
a `*item`, so the type assertion panics (`none`).  On a miss a fresh `item`
with nil `evictElement` is stored; the caller then increments `len` under the
cleanup mutex, pushes the item onto the evict list, stores the node into the
item, and signals the cleanup condition (returning true) iff the new length
exceeds the capacity. -/
def cacheAdd (c : Cache) (key : GoKey) (value : Int) : Option (Cache × Bool) :=
  match key with
  | .nonstr _ => some (c, false)
  | .str keyStr =>
    match lookupItems c.items keyStr with
    | some _ => none
    | none =>
      let id := c.nItems
      let c1 := { c with
        nItems := id + 1
        itemOf := Function.update c.itemOf id ⟨keyStr, value, none⟩
        items := c.items ++ [(keyStr, id)] }
      let n := c1.clen + 1
      let c2 := { c1 with clen := n }
      let pf := lruPushFront c2.lsys 0 (some id)
      let c3 := { c2 with
        lsys := pf.1
        itemOf := Function.update c2.itemOf id ⟨keyStr, value, some pf.2⟩ }
      some (c3, decide (n > c3.capacity))

/-- `LRU.Get(key)`: map lookup, then `MoveToFront` of the item's node; on a
successful move return the value.  A nil `evictElement` would make
`MoveToFront` dereference nil (`none` = panic); it cannot occur in quiescent
states. -/
def cacheGet (c : Cache) (key : GoKey) : Option (Cache × Option Int × Bool) :=
  match key with
  | .nonstr _ => some (c, none, false)
  | .str keyStr =>
    match lookupItems c.items keyStr with
    | none => some (c, none, false)
    | some id =>
      match (c.itemOf id).evictElement with
      | none => none
      | some e =>
        let r := lruMoveToFront c.lsys 0 e
        let c' := { c with lsys := r.1 }
        if r.2 then some (c', some (c.itemOf id).value, true)
        else some (c', none, false)

/-- `LRU.Contains(key)`: map lookup only. -/
def cacheContains (c : Cache) (key : GoKey) : Bool :=
  match key with
  | .nonstr _ => false
  | .str keyStr => (lookupItems c.items keyStr).isSome

/-- `LRU.Peek(key)`: map lookup only, no reordering. -/
def cachePeek (c : Cache) (key : GoKey) : Option Int × Bool :=
  match key with
  | .nonstr _ => (none, false)
  | .str keyStr =>
    match lookupItems c.items keyStr with
    | some id => (some (c.itemOf id).value, true)
    | none => (none, false)

/-- `LRU.Len()`: atomic load of the length counter. -/
def cacheLen (c : Cache) : Int := c.clen

/-- One observed-overfull iteration of `cleanupWorker`'s lock-free loop:
claim one eviction by decrementing `len` (the CAS succeeds, there being no
concurrent mutator in the sequential model), `PopBack` the evict list, and on
success remove the map entry via `RemoveCb` if it still is this exact item
(pointer identity = item-id equality), invoke `onEvict` if configured, and
nil out the node's value and the item's node reference; on a failed pop
restore the counter.  The `popElement.Value.(*item)` dereference is total
here via `getD` (it cannot be nil in well-formed states). -/
def workerEvictOnce (c : Cache) : Cache :=
  let c1 := { c with clen := c.clen - 1 }
  match lruPopBack c1.lsys 0 with
  | (ls, none) => { c1 with lsys := ls, clen := c1.clen + 1 }
  | (ls, some e) =>
    let id := (c1.lsys.valueOf e).getD 0
    let it := c1.itemOf id
    let items' :=
      match lookupItems c1.items it.key with
      | some id' => if id' = id then removeKey c1.items it.key else c1.items
      | none => c1.items
    let log' := if c1.onEvictSet then c1.evictLog ++ [(it.key, it.value)]
                else c1.evictLog
    { c1 with
      lsys := { ls with valueOf := Function.update ls.valueOf e none }
      items := items'
      evictLog := log'
      itemOf := Function.update c1.itemOf id ⟨it.key, it.value, none⟩ }

/-- `cleanupWorker`'s loop, run for at most `fuel` iterations: while
`len > capacity` evict; when `len <= capacity` the worker re-checks under the
cleanup mutex and goes to sleep on the condition variable (capacity positive)
or exits (capacity zero, set by `Close`). -/
def cleanupWorkerLoop : Cache → Nat → Cache
  | c, 0 => c
  | c, fuel + 1 =>
    if c.clen > c.capacity then cleanupWorkerLoop (workerEvictOnce c) fuel
    else c

/-- `LRU.Close()`: under the cleanup mutex set `capacity := 0` and broadcast
the cleanup condition (the worker's drain and exit are
`cleanupWorkerLoop`); the `evict.Close()` call and the `workers.Wait()` join
are represented by the worker running to its exit branch. -/
def cacheClose (c : Cache) : Cache := { c with capacity := 0 }

/-- All pending insertions of the evict list run (quiescence). -/
def cacheQuiesce (c : Cache) : Cache := { c with lsys := lruQuiesce c.lsys 0 }

/-- Well-formedness of a quiescent cache (no pending insertions, no operation
in flight): the evict list is list `0`, the length counter equals the number
of resident nodes, and map entries and evict-list nodes are in the expected
bijection (each node's `Value` is the id of an item whose key looks up to
exactly that item). -/
structure CacheWF (c : Cache) : Prop where
  oneList : c.lsys.nLists = 1
  qEmpty : c.lsys.queue 0 = []
  lenSeq : c.clen = ((c.lsys.seqs 0).length : Int)
  seqOwner0 : ∀ e ∈ c.lsys.seqs 0, c.lsys.owner e = some 0
  seqNodup0 : (c.lsys.seqs 0).Nodup
  itemsLen : c.items.length = (c.lsys.seqs 0).length
  valInj : ∀ e ∈ c.lsys.seqs 0, ∀ e' ∈ c.lsys.seqs 0,
    c.lsys.valueOf e = c.lsys.valueOf e' → e = e'
  residentSeq : ∀ e ∈ c.lsys.seqs 0, ∃ id, c.lsys.valueOf e = some id ∧
    lookupItems c.items (c.itemOf id).key = some id
  residentItems : ∀ p ∈ c.items, ∃ e ∈ c.lsys.seqs 0,
    c.lsys.valueOf e = some p.2 ∧ (c.itemOf p.2).key = p.1
  keysNodup : (c.items.map Prod.fst).Nodup

/-! ## General concurrent list (`src/list.go`, package `concurrent`)

A single `List` value with its two sentinels embedded: node `0` is `&l.head`,
node `1` is `&l.tail`, data nodes get ids from `nAlloc` up.  `nextF`/`prevF`
are the `next`/`prev` pointers (`none` = nil), `listOf e = some 0` models
`e.list == l` (any other value models nil or a different list), `valOf` is
`Element.Value` and `glen` the atomic `len` counter. -/

@[ext]
structure GList where
  nextF : Nat → Option Nat
  prevF : Nat → Option Nat
  listOf : Nat → Option Nat
  valOf : Nat → Int
  glen : Int
  nAlloc : Nat

/-- `lazyInit(clear)`: if the length is non-zero and `clear` is not requested,
do nothing; otherwise re-initialize the two sentinels under their locks. -/
def gLazyInit (s : GList) (clear : Bool) : GList :=
  if s.glen ≠ 0 ∧ clear = false then s
  else
    { s with
        glen := 0
        nextF := Function.update (Function.update s.nextF 0 (some 1)) 1 none
        prevF := Function.update (Function.update s.prevF 0 none) 1 (some 0)
        listOf := Function.update (Function.update s.listOf 0 (some 0)) 1 (some 0) }

/-- `New()`: a zero `List` passed through `lazyInit(false)`. -/
def gNew : GList :=
  gLazyInit
    { nextF := fun _ => none
      prevF := fun _ => none
      listOf := fun _ => none
      valOf := fun _ => 0
      glen := 0
      nAlloc := 2 } false

/-- `List.predecessor(e)`: holds `e`'s lock, follows `e.prev`, and succeeds
once `p.next == e`; gives up when `e.list != l` or `e.prev == nil`.
Sequentially a retry re-reads the same pointers, so the inconsistent case
(reachable only mid-mutation) is modelled as failure. -/
def gPred (s : GList) (e : Nat) : Option Nat :=
  if s.listOf e = some 0 then
    match s.prevF e with
    | none => none
    | some p => if s.nextF p = some e then some p else none
  else none

/-- `insertAfter(e, e, at)` (single-node range): set `e.list = l` first, read
`n := at.next`, fail when `at.list != l` or `n == nil`, else splice `e`
between `at` and `n` and increment `len`. -/
def gInsertAfter (s : GList) (e at_ : Nat) : GList × Bool :=
  let s1 := { s with listOf := Function.update s.listOf e (some 0) }
  match s1.nextF at_ with
  | none => (s1, false)
  | some n =>
    if s1.listOf at_ ≠ some 0 then (s1, false)
    else
      ({ s1 with
          nextF := Function.update (Function.update s1.nextF at_ (some e)) e (some n)
          prevF := Function.update (Function.update s1.prevF e (some at_)) n (some e)
          glen := s1.glen + 1 }, true)

/-- `insertValueAfter(v, at)`: allocate a fresh element and `insertAfter`. -/
def gInsertValueAfter (s : GList) (v : Int) (at_ : Nat) : GList × Option Nat :=
  let e := s.nAlloc
  let s0 := { s with nAlloc := e + 1, valOf := Function.update s.valOf e v }
  let r := gInsertAfter s0 e at_
  (r.1, if r.2 then some e else none)

/-- `insertBefore(e, e, at)` (single-node range): set `e.list = l`, find and
hold `at`'s predecessor (failing when `at` left the list), then splice `e`
between `p` and `at` and increment `len`. -/
def gInsertBefore (s : GList) (e at_ : Nat) : GList × Bool :=
  let s1 := { s with listOf := Function.update s.listOf e (some 0) }
  match gPred s1 at_ with
  | none => (s1, false)
  | some p =>
    ({ s1 with
        nextF := Function.update (Function.update s1.nextF p (some e)) e (some at_)
        prevF := Function.update (Function.update s1.prevF at_ (some e)) e (some p)
        glen := s1.glen + 1 }, true)

/-- `insertValueBefore(v, at)`. -/
def gInsertValueBefore (s : GList) (v : Int) (at_ : Nat) : GList × Option Nat :=
  let e := s.nAlloc
  let s0 := { s with nAlloc := e + 1, valOf := Function.update s.valOf e v }
  let r := gInsertBefore s0 e at_
  (r.1, if r.2 then some e else none)

/-- `List.remove(e)`: find and hold the predecessor (failing when `e` is not
in `l`), read `n := e.next`, unlink, decrement `len`, and clear `e`'s links
and list pointer.  (`n == nil` with a found predecessor only happens for the
tail sentinel, where the Go code would fault on nil; modelled as failure.) -/
def gRemove (s : GList) (e : Nat) : GList × Bool :=
  match gPred s e with
  | none => (s, false)
  | some p =>
    match s.nextF e with
    | none => (s, false)
    | some n =>
      ({ s with
          glen := s.glen - 1
          nextF := Function.update (Function.update s.nextF p (some n)) e none
          prevF := Function.update (Function.update s.prevF n (some p)) e none
          listOf := Function.update s.listOf e none }, true)

/-- `List.Remove(e)`: `lazyInit(false)`, `remove(e)`, and the former value on
success (`nil` otherwise). -/
def gRemovePub (s : GList) (e : Nat) : GList × Option Int :=
  let s0 := gLazyInit s false
  let r := gRemove s0 e
  (r.1, if r.2 then some (r.1.valOf e) else none)

/-- `moveAfter(e, at)`: no-op when `e == at` or `e` already follows `at`;
fail when `at.list != l`; otherwise `remove(e)` then `insertAfter(e, at)`
(the documented race hole: a failing reinsertion leaves `e` detached). -/
def gMoveAfter (s : GList) (e at_ : Nat) : GList × Bool :=
  if e = at_ then (s, true)
  else if s.nextF at_ = some e then (s, true)
  else if s.listOf at_ ≠ some 0 then (s, false)
  else
    let r := gRemove s e
    if r.2 then gInsertAfter r.1 e at_ else (r.1, false)

/-- `moveBefore(e, at)`. -/
def gMoveBefore (s : GList) (e at_ : Nat) : GList × Bool :=
  if e = at_ then (s, true)
  else if s.prevF at_ = some e then (s, true)
  else if s.listOf at_ ≠ some 0 then (s, false)
  else
    let r := gRemove s e
    if r.2 then gInsertBefore r.1 e at_ else (r.1, false)

/-- `List.InsertAfter(v, mark)`. -/
def gInsertAfterPub (s : GList) (v : Int) (mark : Nat) : GList × Option Nat :=
  gInsertValueAfter (gLazyInit s false) v mark

/-- `List.InsertBefore(v, mark)`. -/
def gInsertBeforePub (s : GList) (v : Int) (mark : Nat) : GList × Option Nat :=
  gInsertValueBefore (gLazyInit s false) v mark

/-- `List.PushFront(v) = InsertAfter(v, &l.head)`. -/
def gPushFront (s : GList) (v : Int) : GList × Option Nat := gInsertAfterPub s v 0

/-- `List.PushBack(v) = InsertBefore(v, &l.tail)`. -/
def gPushBack (s : GList) (v : Int) : GList × Option Nat := gInsertBeforePub s v 1

/-- `List.MoveToFront(e)`: no-op unless `e.list == l`, else
`moveAfter(e, &l.head)`. -/
def gMoveToFront (s : GList) (e : Nat) : GList :=
  if s.listOf e ≠ some 0 then s else (gMoveAfter s e 0).1

/-- `List.MoveToBack(e)`: no-op unless `e.list == l`, else
`moveBefore(e, &l.tail)`. -/
def gMoveToBack (s : GList) (e : Nat) : GList :=
  if s.listOf e ≠ some 0 then s else (gMoveBefore s e 1).1

/-- Forward walk: follow `next` from the head sentinel, collecting data nodes
until the tail sentinel (or a nil pointer, or fuel exhaustion). -/
def fwdWalkAux (s : GList) : Nat → Nat → List Nat
  | 0, _ => []
  | fuel + 1, cur =>
    match s.nextF cur with
    | none => []
    | some nxt => if nxt = 1 then [] else nxt :: fwdWalkAux s fuel nxt

/-- The forward traversal `head.next … tail`, with fuel `Len`. -/
def fwdWalk (s : GList) : List Nat := fwdWalkAux s s.glen.toNat 0

/-- Backward walk: follow `prev` from the tail sentinel. -/
def bwdWalkAux (s : GList) : Nat → Nat → List Nat
  | 0, _ => []
  | fuel + 1, cur =>
    match s.prevF cur with
    | none => []
    | some prv => if prv = 0 then [] else prv :: bwdWalkAux s fuel prv

/-- The backward traversal `tail.prev … head`, with fuel `Len`. -/
def bwdWalk (s : GList) : List Nat := bwdWalkAux s s.glen.toNat 1

/-- The loop body of `copyListElements` (`src/list.go:400-407`):
`tmp.insertValueBefore(e.Value, &tmp.tail)` once per value of the source
traversal.  The temporary list `tmp` lives only inside the call: its two
sentinels are not nodes of this heap, so `tmp.tail.prev` is carried as the
accumulator `p` (the node inserted last, `none` before the first insertion),
and the stores aimed at the sentinels — the first node's `prev` and each
node's transient `next` — are left unchanged; they are dead once the caller
splices the range into `l` (overwritten) or drops it.  `tmp` itself is list
id `1` (any id other than this list's `0`). -/
def gCopyAux : GList → Option Nat → List Int → GList × Option Nat
  | s, p, [] => (s, p)
  | s, p, v :: vs =>
    gCopyAux
      { s with
          nAlloc := s.nAlloc + 1
          valOf := Function.update s.valOf s.nAlloc v
          listOf := Function.update s.listOf s.nAlloc (some 1)
          nextF := match p with
            | none => s.nextF
            | some q => Function.update s.nextF q (some s.nAlloc)
          prevF := match p with
            | none => s.prevF
            | some q => Function.update s.prevF s.nAlloc (some q) }
      (some s.nAlloc) vs

/-- `copyListElements()` (`src/list.go:400-407`) applied to a source whose
`Front()`/`Next()` traversal yields the values `vs`: copy them into a fresh
chain and return `(tmp.Front(), tmp.Back())` — both `nil` for an empty
source, otherwise the first and last ids allocated. -/
def gCopyListElements (s : GList) (vs : List Int) :
    GList × Option Nat × Option Nat :=
  let r := gCopyAux s none vs
  (r.1, (match r.2 with | none => none | some _ => some s.nAlloc), r.2)

/-- The node sequence visited by the marking loop
`for e := first; e != last; e = e.next` of the range forms of
`insertAfter`/`insertBefore` (`src/list.go:150-154`, `211-215`).  The Go
loop is unbounded; fuel cuts off a walk that would dereference nil or
diverge (`none`). -/
def gRangeNodes (s : GList) : Nat → Nat → Nat → Option (List Nat)
  | 0, _, _ => none
  | fuel + 1, first, last =>
    if first = last then some [first]
    else
      match s.nextF first with
      | none => none
      | some nx => (gRangeNodes s fuel nx last).map (fun t => first :: t)

/-- `insertAfter(first, last, at)` (`src/list.go:148-177`), full range form:
mark every node of `[first..last]` with `list = l` while counting `nAdded`,
read `n := at.next`, fail when `at.list != l` or `n == nil`, else splice the
whole range between `at` and `n` and add `nAdded` to `len`.  `none` stands
for a marking walk that faults or diverges; the fuel `s.nAlloc` suffices for
every range built by `copyListElements`. -/
def gInsertAfterR (s : GList) (first last at_ : Nat) : Option (GList × Bool) :=
  match gRangeNodes s s.nAlloc first last with
  | none => none
  | some ns =>
    let s1 := { s with listOf := fun x => if x ∈ ns then some 0 else s.listOf x }
    match s1.nextF at_ with
    | none => some (s1, false)
    | some n =>
      if s1.listOf at_ ≠ some 0 then some (s1, false)
      else
        some ({ s1 with
            nextF := Function.update (Function.update s1.nextF at_ (some first))
              last (some n)
            prevF := Function.update (Function.update s1.prevF first (some at_))
              n (some last)
            glen := s1.glen + ns.length }, true)

/-- `insertBefore(first, last, at)` (`src/list.go:207-236`), full range
form: mark the range, find and hold `at`'s predecessor (failing when `at`
left the list), then splice the range between `p` and `at`. -/
def gInsertBeforeR (s : GList) (first last at_ : Nat) : Option (GList × Bool) :=
  match gRangeNodes s s.nAlloc first last with
  | none => none
  | some ns =>
    let s1 := { s with listOf := fun x => if x ∈ ns then some 0 else s.listOf x }
    match gPred s1 at_ with
    | none => some (s1, false)
    | some p =>
      some ({ s1 with
          nextF := Function.update (Function.update s1.nextF p (some first))
            last (some at_)
          prevF := Function.update (Function.update s1.prevF first (some p))
            at_ (some last)
          glen := s1.glen + ns.length }, true)

/-- The tail of `PushFrontList` (`src/list.go:423-426`):
`if first != nil && last != nil { l.insertAfter(first, last, &l.head) }`
applied to the result of the copy.  The `getD` default is dead code: the
marking walk over a freshly copied chain always succeeds. -/
def gSpliceFront (r : GList × Option Nat × Option Nat) : GList :=
  match r.2.1, r.2.2 with
  | some first, some last =>
    ((gInsertAfterR r.1 first last 0).getD (r.1, false)).1
  | _, _ => r.1

/-- The tail of `PushBackList` (`src/list.go:413-416`):
`if first != nil && last != nil { l.insertBefore(first, last, &l.tail) }`. -/
def gSpliceBack (r : GList × Option Nat × Option Nat) : GList :=
  match r.2.1, r.2.2 with
  | some first, some last =>
    ((gInsertBeforeR r.1 first last 1).getD (r.1, false)).1
  | _, _ => r.1

/-- `List.PushFrontList(other)` (`src/list.go:419-427`): `lazyInit(false)`,
copy `other`'s values front to back (its `Front()`/`Next()` traversal, the
forward walk), and when the copy is nonempty
`insertAfter(first, last, &l.head)`. -/
def gPushFrontList (s other : GList) : GList :=
  let s0 := gLazyInit s false
  gSpliceFront (gCopyListElements s0 ((fwdWalk other).map other.valOf))

/-- `List.PushBackList(other)` (`src/list.go:409-417`): `lazyInit(false)`,
copy `other`'s values, and when the copy is nonempty
`insertBefore(first, last, &l.tail)`. -/
def gPushBackList (s other : GList) : GList :=
  let s0 := gLazyInit s false
  gSpliceBack (gCopyListElements s0 ((fwdWalk other).map other.valOf))

/-- Doubly-linked adjacency of two node ids under pointer maps `nf`/`pf`. -/
def adjR (nf pf : Nat → Option Nat) (a b : Nat) : Prop :=
  nf a = some b ∧ pf b = some a

/-- The full node sequence of a list with data chain `c`:
head sentinel, data nodes, tail sentinel. -/
def fullSeq (c : List Nat) : List Nat := 0 :: c ++ [1]

/-- Well-formedness of a general list with data chain `c` (the state of a
quiescent list as maintained by the operations; nodes outside the chain may
carry a stale `list` pointer — a failed insert leaves such a node — but have
nil links). -/
structure WFGc (s : GList) (c : List Nat) : Prop where
  nodup : (fullSeq c).Nodup
  links : List.Chain' (adjR s.nextF s.prevF) (fullSeq c)
  prevHead : s.prevF 0 = none
  nextTail : s.nextF 1 = none
  memList : ∀ e ∈ c, s.listOf e = some 0
  headList : s.listOf 0 = some 0
  tailList : s.listOf 1 = some 0
  detached : ∀ e, e ∉ c → e ≠ 0 → e ≠ 1 → s.nextF e = none ∧ s.prevF e = none
  lenEq : s.glen = (c.length : Int)
  bounded : ∀ e ∈ c, 2 ≤ e ∧ e < s.nAlloc
  alloc2 : 2 ≤ s.nAlloc

/-- A well-formed general list: some data chain witnesses the invariant. -/
def WFG (s : GList) : Prop := ∃ c, WFGc s c

/-- A concrete well-formed one-element general list (value `7` at node `2`). -/
def gW1 : GList :=
  { nextF := fun x => if x = 0 then some 2 else if x = 2 then some 1 else none
    prevF := fun x => if x = 1 then some 2 else if x = 2 then some 0 else none
    listOf := fun x => if x = 0 ∨ x = 1 ∨ x = 2 then some 0 else none
    valOf := fun x => if x = 2 then 7 else 0
    glen := 1
    nAlloc := 3 }

theorem lruNew_wf (n : Nat) : LruWF (lruNew n) := by
  constructor <;> intro l <;> simp [lruNew]

theorem physIn_some_spec {s : LruSys} {e P : Nat} (h : physIn s e = some P) :
    P < s.nLists ∧ e ∈ s.seqs P := by
  have h1 := List.mem_of_find?_eq_some h
  have h2 := List.find?_some h
  simp only [List.mem_range] at h1
  simp only [decide_eq_true_eq] at h2
  exact ⟨h1, h2⟩

theorem physIn_eq_none {s : LruSys} {e : Nat}
    (h : ∀ l, l < s.nLists → e ∉ s.seqs l) : physIn s e = none := by
  apply List.find?_eq_none.mpr
  intro l hl
  simp only [List.mem_range] at hl
  simpa using h l hl

/-- Under well-formedness, a physically linked element carries the matching
back-pointer. -/
theorem physIn_owner {s : LruSys} (h : LruWF s) {e P : Nat}
    (hp : physIn s e = some P) : s.owner e = some P :=
  h.seqOwner P e (physIn_some_spec hp).2

/-- `MoveToFront` on a physically detached element whose back-pointer already
names `l` (a pending insertion into `l`) is a no-op returning true. -/
theorem lruMoveToFront_of_detached {s : LruSys} {e l : Nat}
    (hd : physIn s e = none) (ho : s.owner e = some l) :
    lruMoveToFront s l e = (s, true) := by
  have hrem : lruRemove s l e false (some l) = (s, false) := by
    simp [lruRemove, hd]
  simp [lruMoveToFront, hrem, ho]

/-- C7 helper: a second `MoveToFront` of the same element is the identity. -/
theorem lruMoveToFront_idem (s : LruSys) (h : LruWF s) (l e : Nat) :
    lruMoveToFront (lruMoveToFront s l e).1 l e = lruMoveToFront s l e := by
  rcases hp : physIn s e with _ | P
  · simp [lruMoveToFront, lruRemove, hp]
  · have hseqs1 : (lruMoveToFront s l e).1.seqs =
        Function.update s.seqs P ((s.seqs P).erase e) := by
      simp [lruMoveToFront, lruRemove, hp]
    have howner1 : (lruMoveToFront s l e).1.owner =
        Function.update s.owner e (some l) := by
      simp [lruMoveToFront, lruRemove, hp]
    have hn1 : (lruMoveToFront s l e).1.nLists = s.nLists := by
      simp [lruMoveToFront, lruRemove, hp]
    have hsnd : (lruMoveToFront s l e).2 = true := by
      simp [lruMoveToFront, lruRemove, hp]
    have hdetached : physIn (lruMoveToFront s l e).1 e = none := by
      apply physIn_eq_none
      intro L hL hmem
      rw [hseqs1] at hmem
      rw [hn1] at hL
      by_cases hlP : L = P
      · subst hlP
        rw [Function.update_same] at hmem
        exact (h.seqNodup L).not_mem_erase hmem
      · rw [Function.update_noteq hlP] at hmem
        have h1 := h.seqOwner L e hmem
        have h2 := physIn_owner h hp
        rw [h1] at h2
        exact hlP (Option.some.inj h2)
    have howne : (lruMoveToFront s l e).1.owner e = some l := by
      rw [howner1, Function.update_same]
    rw [lruMoveToFront_of_detached hdetached howne, ← hsnd]

theorem lruW1_wf : LruWF lruW1 := by
  refine ⟨?_, ?_, ?_⟩
  · intro l
    by_cases hl : l = 0 <;> simp [lruW1, hl]
  · intro l e he
    by_cases hl : l = 0
    · subst hl
      have he0 : e = 0 := by simpa [lruW1] using he
      subst he0
      simp [lruW1]
    · simp [lruW1, hl] at he
  · intro l l' e he
    simp [lruW1] at he

/-- C4: `MoveToFront(node)` returns true when the call itself removed the node
from its current physical position (in this or another LRU list) and scheduled
the asynchronous reinsertion; returns true when the node is found to already
belong to this list (its back-pointer names `l`, a pending insertion by a
racing mover); and returns false exactly when the node is physically detached
and its back-pointer no longer names this list (removed by another actor). -/
theorem moveToFront_return_characterisation (s : LruSys) (_wf : LruWF s) (l e : Nat) :
    (∀ P, physIn s e = some P →
      (lruMoveToFront s l e).2 = true ∧
      (lruMoveToFront s l e).1.seqs P = (s.seqs P).erase e ∧
      (lruMoveToFront s l e).1.queue l = s.queue l ++ [e]) ∧
    (physIn s e = none → s.owner e = some l → lruMoveToFront s l e = (s, true)) ∧
    ((lruMoveToFront s l e).2 = false ↔ physIn s e = none ∧ s.owner e ≠ some l) := by
  refine ⟨?_, ?_, ?_, ?_⟩
  · intro P hP
    refine ⟨?_, ?_, ?_⟩ <;> simp [lruMoveToFront, lruRemove, hP]
  · intro hd ho
    exact lruMoveToFront_of_detached hd ho
  · intro hfalse
    rcases hp : physIn s e with _ | P
    · refine ⟨rfl, ?_⟩
      have : lruRemove s l e false (some l) = (s, false) := by
        simp [lruRemove, hp]
      simp [lruMoveToFront, this] at hfalse
      simpa using hfalse
    · exfalso
      simp [lruMoveToFront, lruRemove, hp] at hfalse
  · rintro ⟨hd, ho⟩
    have : lruRemove s l e false (some l) = (s, false) := by
      simp [lruRemove, hd]
    simp [lruMoveToFront, this, ho]

theorem moveToFront_return_characterisation_witness :
    ((lruMoveToFront lruW1 0 0).2 = true ∧
      (lruMoveToFront lruW1 0 0).1.seqs 0 = (lruW1.seqs 0).erase 0 ∧
      (lruMoveToFront lruW1 0 0).1.queue 0 = lruW1.queue 0 ++ [0]) ∧
    ((lruMoveToFront lruW1 0 0).2 = false ↔
      physIn lruW1 0 = none ∧ lruW1.owner 0 ≠ some 0) :=
  ⟨(moveToFront_return_characterisation lruW1 lruW1_wf 0 0).1 0 (by decide),
   (moveToFront_return_characterisation lruW1 lruW1_wf 0 0).2.2⟩

/-- C7: two successive `MoveToFront(e)` calls on the LRU list leave the system
in exactly the same state as one call; in particular after quiescence the
element sequence and the length counter agree. -/
theorem moveToFront_idempotent (s : LruSys) (h : LruWF s) (l e : Nat) :
    lruMoveToFront (lruMoveToFront s l e).1 l e = lruMoveToFront s l e ∧
    (lruQuiesce (lruMoveToFront (lruMoveToFront s l e).1 l e).1 l).seqs l =
      (lruQuiesce (lruMoveToFront s l e).1 l).seqs l ∧
    (lruQuiesce (lruMoveToFront (lruMoveToFront s l e).1 l e).1 l).lenOf l =
      (lruQuiesce (lruMoveToFront s l e).1 l).lenOf l := by
  have h1 := lruMoveToFront_idem s h l e
  exact ⟨h1, by rw [h1], by rw [h1]⟩

theorem moveToFront_idempotent_witness :
    lruMoveToFront (lruMoveToFront lruW1 0 0).1 0 0 = lruMoveToFront lruW1 0 0 ∧
    (lruQuiesce (lruMoveToFront (lruMoveToFront lruW1 0 0).1 0 0).1 0).seqs 0 =
      (lruQuiesce (lruMoveToFront lruW1 0 0).1 0).seqs 0 ∧
    (lruQuiesce (lruMoveToFront (lruMoveToFront lruW1 0 0).1 0 0).1 0).lenOf 0 =
      (lruQuiesce (lruMoveToFront lruW1 0 0).1 0).lenOf 0 :=
  moveToFront_idempotent lruW1 lruW1_wf 0 0

/-! ### Association-list facts for the concurrent map model -/

theorem lookupItems_mem : ∀ {xs : List (String × Nat)} {k : String} {id : Nat},
    lookupItems xs k = some id → (k, id) ∈ xs := by
  intro xs
  induction xs with
  | nil => intro k id h; simp [lookupItems] at h
  | cons p rest ih =>
    intro k id h
    obtain ⟨k', id'⟩ := p
    by_cases hk : k' = k
    · subst hk
      simp [lookupItems] at h
      subst h
      exact List.mem_cons_self _ _
    · rw [lookupItems, if_neg hk] at h
      exact List.mem_cons_of_mem _ (ih h)

theorem lookupItems_of_mem_nodup :
    ∀ {xs : List (String × Nat)}, (xs.map Prod.fst).Nodup →
    ∀ {p : String × Nat}, p ∈ xs → lookupItems xs p.1 = some p.2 := by
  intro xs
  induction xs with
  | nil => intro _ p hp; simp at hp
  | cons q rest ih =>
    intro hnd p hp
    obtain ⟨k', id'⟩ := q
    rw [List.map_cons, List.nodup_cons] at hnd
    rcases List.mem_cons.mp hp with hq | hrest
    · subst hq
      simp [lookupItems]
    · have hmem : p.1 ∈ rest.map Prod.fst := List.mem_map_of_mem Prod.fst hrest
      have hne : k' ≠ p.1 := fun hcontra => hnd.1 (hcontra ▸ hmem)
      rw [lookupItems, if_neg hne]
      exact ih hnd.2 hrest

theorem removeKey_sublist : ∀ (xs : List (String × Nat)) (k : String),
    List.Sublist (removeKey xs k) xs := by
  intro xs k
  induction xs with
  | nil => simp [removeKey]
  | cons q rest ih =>
    obtain ⟨k', id'⟩ := q
    by_cases hk : k' = k
    · rw [removeKey, if_pos hk]
      exact List.sublist_cons_self _ _
    · rw [removeKey, if_neg hk]
      exact ih.cons₂ _

theorem mem_removeKey {xs : List (String × Nat)} {k : String} {p : String × Nat}
    (h : p ∈ removeKey xs k) : p ∈ xs :=
  (removeKey_sublist xs k).mem h

theorem mem_removeKey_of_ne :
    ∀ {xs : List (String × Nat)} {k : String} {p : String × Nat},
    p ∈ xs → p.1 ≠ k → p ∈ removeKey xs k := by
  intro xs
  induction xs with
  | nil => intro k p hp; simp at hp
  | cons q rest ih =>
    intro k p hp hne
    obtain ⟨k', id'⟩ := q
    rcases List.mem_cons.mp hp with hq | hrest
    · subst hq
      rw [removeKey, if_neg hne]
      exact List.mem_cons_self _ _
    · by_cases hk : k' = k
      · rw [removeKey, if_pos hk]
        exact hrest
      · rw [removeKey, if_neg hk]
        exact List.mem_cons_of_mem _ (ih hrest hne)

theorem lookupItems_removeKey_of_ne :
    ∀ {xs : List (String × Nat)} {k k' : String}, k' ≠ k →
    lookupItems (removeKey xs k) k' = lookupItems xs k' := by
  intro xs
  induction xs with
  | nil => intro k k' _; rfl
  | cons q rest ih =>
    intro k k' hne
    obtain ⟨k0, id0⟩ := q
    by_cases hk : k0 = k
    · subst hk
      rw [removeKey, if_pos rfl]
      rw [lookupItems, if_neg (Ne.symm hne)]
    · rw [removeKey, if_neg hk]
      simp only [lookupItems]
      split_ifs with hk'
      · rfl
      · exact ih hne

theorem length_removeKey :
    ∀ {xs : List (String × Nat)} {k : String} {id : Nat},
    lookupItems xs k = some id → (removeKey xs k).length + 1 = xs.length := by
  intro xs
  induction xs with
  | nil => intro k id h; simp [lookupItems] at h
  | cons q rest ih =>
    intro k id h
    obtain ⟨k0, id0⟩ := q
    by_cases hk : k0 = k
    · rw [removeKey, if_pos hk]
      simp
    · rw [removeKey, if_neg hk]
      rw [lookupItems, if_neg hk] at h
      simp only [List.length_cons]
      rw [← ih h]

theorem mem_removeKey_ne_key :
    ∀ {xs : List (String × Nat)}, (xs.map Prod.fst).Nodup →
    ∀ {k : String} {p : String × Nat}, p ∈ removeKey xs k → p.1 ≠ k := by
  intro xs
  induction xs with
  | nil => intro _ k p hp; simp [removeKey] at hp
  | cons q rest ih =>
    intro hnd k p hp
    obtain ⟨k0, id0⟩ := q
    rw [List.map_cons, List.nodup_cons] at hnd
    by_cases hk : k0 = k
    · subst hk
      rw [removeKey, if_pos rfl] at hp
      intro hcontra
      have hmem : p.1 ∈ rest.map Prod.fst := List.mem_map_of_mem Prod.fst hp
      rw [hcontra] at hmem
      exact hnd.1 hmem
    · rw [removeKey, if_neg hk] at hp
      rcases List.mem_cons.mp hp with hq | hrest
      · subst hq
        exact hk
      · exact ih hnd.2 hrest

/-! ### The cleanup worker's eviction step -/

theorem physIn_cache {c : Cache} (h1 : c.lsys.nLists = 1) {e : Nat}
    (hmem : e ∈ c.lsys.seqs 0) : physIn c.lsys e = some 0 := by
  unfold physIn
  rw [h1]
  show ([0].find? _) = some 0
  simp [List.find?, hmem]

/-- One worker iteration on a well-formed cache whose evict chain ends in `e`:
it pops `e`, removes exactly `e`'s map entry, logs `e`'s item if the callback
is configured, and preserves well-formedness. -/
theorem workerEvictOnce_spec (c : Cache) (hwf : CacheWF c) (es : List Nat)
    (e id : Nat) (hseq : c.lsys.seqs 0 = es ++ [e])
    (hval : c.lsys.valueOf e = some id) :
    CacheWF (workerEvictOnce c) ∧
    (workerEvictOnce c).lsys.seqs 0 = es ∧
    (workerEvictOnce c).clen = c.clen - 1 ∧
    (workerEvictOnce c).capacity = c.capacity ∧
    (workerEvictOnce c).items = removeKey c.items (c.itemOf id).key ∧
    (workerEvictOnce c).evictLog = (if c.onEvictSet then
        c.evictLog ++ [((c.itemOf id).key, (c.itemOf id).value)]
      else c.evictLog) ∧
    (workerEvictOnce c).onEvictSet = c.onEvictSet ∧
    (∀ j, j ≠ id → (workerEvictOnce c).itemOf j = c.itemOf j) := by
  have hmem : e ∈ c.lsys.seqs 0 := by rw [hseq]; simp
  have hnotes : e ∉ es := by
    have hnd := hwf.seqNodup0
    rw [hseq, List.nodup_append] at hnd
    exact fun hm => hnd.2.2 hm (List.mem_singleton_self e)
  have herase : (c.lsys.seqs 0).erase e = es := by
    rw [hseq, List.erase_append_right _ hnotes]
    simp
  have hphys : physIn c.lsys e = some 0 := physIn_cache hwf.oneList hmem
  have howner : c.lsys.owner e = some 0 := hwf.seqOwner0 e hmem
  have hlast : (c.lsys.seqs 0).getLast? = some e := by
    rw [hseq]; exact List.getLast?_concat es
  obtain ⟨id0, hval0, hlook0⟩ := hwf.residentSeq e hmem
  have hid0 : id0 = id := by
    rw [hval] at hval0; exact (Option.some.inj hval0).symm
  have hlook : lookupItems c.items (c.itemOf id).key = some id := by
    rw [← hid0]; exact hlook0
  -- the explicit result state
  have hred : workerEvictOnce c =
      { capacity := c.capacity
        clen := c.clen - 1
        items := removeKey c.items (c.itemOf id).key
        itemOf := Function.update c.itemOf id
          ⟨(c.itemOf id).key, (c.itemOf id).value, none⟩
        nItems := c.nItems
        lsys :=
          { nLists := c.lsys.nLists
            nElems := c.lsys.nElems
            owner := Function.update c.lsys.owner e none
            valueOf := Function.update c.lsys.valueOf e none
            seqs := Function.update c.lsys.seqs 0 es
            lenOf := Function.update c.lsys.lenOf 0 (c.lsys.lenOf 0 - 1)
            pendingOf := c.lsys.pendingOf
            queue := c.lsys.queue }
        onEvictSet := c.onEvictSet
        evictLog := if c.onEvictSet then
            c.evictLog ++ [((c.itemOf id).key, (c.itemOf id).value)]
          else c.evictLog
        workerStarted := c.workerStarted } := by
    unfold workerEvictOnce lruPopBack lruRemove
    simp only [hlast, hphys, howner, hval, hlook, herase]
    simp [hval, hlook]
  have hmemof : ∀ x ∈ es, x ∈ c.lsys.seqs 0 := by
    intro x hx
    rw [hseq]
    exact List.mem_append_left _ hx
  have hne_of_mem : ∀ x ∈ es, x ≠ e := fun x hx hcontra => hnotes (hcontra ▸ hx)
  have hid_ne : ∀ x ∈ es, ∀ j, c.lsys.valueOf x = some j → j ≠ id := by
    intro x hx j hj hcontra
    subst hcontra
    rw [← hval] at hj
    exact hne_of_mem x hx (hwf.valInj x (hmemof x hx) e hmem hj)
  have hkey_ne : ∀ j, j ≠ id →
      lookupItems c.items (c.itemOf j).key = some j →
      (c.itemOf j).key ≠ (c.itemOf id).key := by
    intro j hjne hlj hcontra
    rw [hcontra, hlook] at hlj
    exact hjne (Option.some.inj hlj).symm
  refine ⟨?_, by rw [hred]; simp, by rw [hred], by rw [hred], by rw [hred],
    by rw [hred], by rw [hred], ?_⟩
  · rw [hred]
    have hndes : es.Nodup := by
      have hnd := hwf.seqNodup0
      rw [hseq, List.nodup_append] at hnd
      exact hnd.1
    refine ⟨hwf.oneList, hwf.qEmpty, ?_, ?_, ?_, ?_, ?_, ?_, ?_, ?_⟩
    · simp only [Function.update_same]
      have h := hwf.lenSeq
      rw [hseq] at h
      simp only [List.length_append, List.length_singleton] at h
      omega
    · intro x hx
      simp only [Function.update_same] at hx
      simp only [Function.update_noteq (hne_of_mem x hx)]
      exact hwf.seqOwner0 x (hmemof x hx)
    · simpa using hndes
    · simp only [Function.update_same]
      have h := length_removeKey hlook
      have h2 := hwf.itemsLen
      rw [hseq] at h2
      simp only [List.length_append, List.length_singleton] at h2
      omega
    · intro x hx y hy
      simp only [Function.update_same] at hx hy
      simp only [Function.update_noteq (hne_of_mem x hx),
        Function.update_noteq (hne_of_mem y hy)]
      exact hwf.valInj x (hmemof x hx) y (hmemof y hy)
    · intro x hx
      simp only [Function.update_same] at hx
      obtain ⟨j, hvj, hlj⟩ := hwf.residentSeq x (hmemof x hx)
      have hjne : j ≠ id := hid_ne x hx j hvj
      refine ⟨j, ?_, ?_⟩
      · simpa only [Function.update_noteq (hne_of_mem x hx)] using hvj
      · simp only [Function.update_noteq hjne]
        rw [lookupItems_removeKey_of_ne (hkey_ne j hjne hlj)]
        exact hlj
    · intro p hp
      simp only at hp
      have hp_items : p ∈ c.items := mem_removeKey hp
      have hp_key : p.1 ≠ (c.itemOf id).key :=
        mem_removeKey_ne_key hwf.keysNodup hp
      obtain ⟨x, hx, hvx, hkx⟩ := hwf.residentItems p hp_items
      have hxe : x ≠ e := by
        intro hcontra
        subst hcontra
        rw [hval] at hvx
        have hp2 : p.2 = id := (Option.some.inj hvx).symm
        rw [hp2] at hkx
        exact hp_key hkx.symm
      have hxes : x ∈ es := by
        rw [hseq] at hx
        rcases List.mem_append.mp hx with h1 | h1
        · exact h1
        · exact absurd (List.mem_singleton.mp h1) hxe
      have hp2ne : p.2 ≠ id := hid_ne x hxes p.2 hvx
      refine ⟨x, ?_, ?_, ?_⟩
      · simpa only [Function.update_same] using hxes
      · simpa only [Function.update_noteq hxe] using hvx
      · simpa only [Function.update_noteq hp2ne] using hkx
    · simp only
      exact hwf.keysNodup.sublist
        ((removeKey_sublist c.items (c.itemOf id).key).map Prod.fst)
  · intro j hjne
    rw [hred]
    simp only [Function.update_noteq hjne]

/-- The cleanup worker, given an observed length of `n`, drains a
well-formed quiescent cache with capacity `0` completely: the counter reaches
`0`, the map empties, every previous log entry survives, and every previously
resident entry gets logged (when the callback is configured). -/
theorem worker_drains : ∀ (n : Nat) (c : Cache), CacheWF c → c.capacity = 0 →
    (c.lsys.seqs 0).length = n →
    (cleanupWorkerLoop c (n + 1)).clen = 0 ∧
    (cleanupWorkerLoop c (n + 1)).items = [] ∧
    (cleanupWorkerLoop c (n + 1)).capacity = 0 ∧
    (∀ x ∈ c.evictLog, x ∈ (cleanupWorkerLoop c (n + 1)).evictLog) ∧
    (c.onEvictSet = true → ∀ p ∈ c.items,
      (p.1, (c.itemOf p.2).value) ∈ (cleanupWorkerLoop c (n + 1)).evictLog) := by
  intro n
  induction n with
  | zero =>
    intro c hwf hcap hlen
    have hclen : c.clen = 0 := by rw [hwf.lenSeq, hlen]; rfl
    have hstop : cleanupWorkerLoop c 1 = c := by
      unfold cleanupWorkerLoop
      rw [if_neg]
      rw [hclen, hcap]
      omega
    have hitems : c.items = [] := by
      have h := hwf.itemsLen
      rw [hlen] at h
      exact List.length_eq_zero.mp h
    rw [hstop]
    exact ⟨hclen, hitems, hcap, fun x hx => hx, fun _ p hp => by
      rw [hitems] at hp; simp at hp⟩
  | succ n ih =>
    intro c hwf hcap hlen
    rcases List.eq_nil_or_concat (c.lsys.seqs 0) with hnil | ⟨es, e, hseqc⟩
    · rw [hnil] at hlen
      simp at hlen
    · have hseq : c.lsys.seqs 0 = es ++ [e] := by simpa using hseqc
      have hmem_e : e ∈ c.lsys.seqs 0 := by rw [hseq]; simp
      obtain ⟨id, hval, hlook⟩ := hwf.residentSeq e hmem_e
      obtain ⟨hwf2, hseq2, hclen2, hcap2, hitems2, hlog2, hset2, hitemOf2⟩ :=
        workerEvictOnce_spec c hwf es e id hseq hval
      have hcond : c.clen > c.capacity := by
        have hc := hwf.lenSeq
        rw [hlen] at hc
        rw [hcap]
        omega
      have hstep : cleanupWorkerLoop c (n + 1 + 1) =
          cleanupWorkerLoop (workerEvictOnce c) (n + 1) := by
        conv_lhs => rw [cleanupWorkerLoop]
        rw [if_pos hcond]
      have hlen2 : ((workerEvictOnce c).lsys.seqs 0).length = n := by
        rw [hseq2]
        rw [hseq] at hlen
        simpa using hlen
      have hcap2z : (workerEvictOnce c).capacity = 0 := by rw [hcap2, hcap]
      obtain ⟨g1, g2, g3, g4, g5⟩ := ih (workerEvictOnce c) hwf2 hcap2z hlen2
      rw [hstep]
      refine ⟨g1, g2, g3, ?_, ?_⟩
      · intro x hx
        apply g4
        rw [hlog2]
        split_ifs with hs
        · exact List.mem_append_left _ hx
        · exact hx
      · intro hset p hp
        by_cases hpk : p.1 = (c.itemOf id).key
        · have hlp : lookupItems c.items p.1 = some p.2 :=
            lookupItems_of_mem_nodup hwf.keysNodup hp
          rw [hpk, hlook] at hlp
          have hp2 : p.2 = id := (Option.some.inj hlp).symm
          apply g4
          rw [hlog2, if_pos hset, hp2, hpk]
          exact List.mem_append_right _ (List.mem_singleton_self _)
        · have hp2mem : p ∈ (workerEvictOnce c).items := by
            rw [hitems2]
            exact mem_removeKey_of_ne hp hpk
          have hpid : p.2 ≠ id := by
            intro hcontra
            obtain ⟨x, hx, hvx, hkx⟩ := hwf.residentItems p hp
            rw [hcontra] at hvx hkx
            have hxe : x = e := hwf.valInj x hx e hmem_e (hvx.trans hval.symm)
            exact hpk hkx.symm
          have hset2t : (workerEvictOnce c).onEvictSet = true := by
            rw [hset2]; exact hset
          have hfin := g5 hset2t p hp2mem
          rw [hitemOf2 p.2 hpid] at hfin
          exact hfin

/-- C8: `NewWithEvict(size, onEvict)` errors with message
`"must provide a positive size"` exactly when `size <= 0`, and otherwise
returns an initialized empty cache (capacity `size`, zero length, empty map,
empty evict list) with the background eviction worker started. -/
theorem newWithEvict_spec (size : Int) (onEvict : Bool) :
    NewWithEvict size onEvict =
      (if size ≤ 0 then Except.error "must provide a positive size"
       else Except.ok (initCache size onEvict)) ∧
    (initCache size onEvict).capacity = size ∧
    (initCache size onEvict).clen = 0 ∧
    (initCache size onEvict).items = [] ∧
    (initCache size onEvict).lsys.seqs 0 = [] ∧
    (initCache size onEvict).lsys.lenOf 0 = 0 ∧
    (initCache size onEvict).lsys.queue 0 = [] ∧
    (initCache size onEvict).onEvictSet = onEvict ∧
    (initCache size onEvict).workerStarted = true :=
  ⟨rfl, rfl, rfl, rfl, rfl, rfl, rfl, rfl, rfl⟩

/-- C9: `Add` with a non-string key returns `false` and has no side effect:
the whole cache state (map, length counter, evict list) is unchanged and no
eviction is signalled. -/
theorem add_nonstring_rejected (c : Cache) (tag : Nat) (v : Int) :
    cacheAdd c (GoKey.nonstr tag) v = some (c, false) := rfl

/-- C10: for a non-string key, `Get` returns `(nil, false)` without touching
the cache state, `Peek` returns `(nil, false)`, and `Contains` returns
`false`; `Peek` and `Contains` read only the map. -/
theorem lookups_nonstring_rejected (c : Cache) (tag : Nat) :
    cacheGet c (GoKey.nonstr tag) = some (c, none, false) ∧
    cachePeek c (GoKey.nonstr tag) = (none, false) ∧
    cacheContains c (GoKey.nonstr tag) = false :=
  ⟨rfl, rfl, rfl⟩

/-- C2 (failing input): on a cache already holding key `"k"`, a second
`Add("k", 2)` panics — the `Upsert` merge asserts `valueInMap.(item)` but the
map stores a `*item` — so the add/peek round trip fails for resident keys.
For a fresh key the round trip does return the stored value. -/
theorem add_existing_key_panics :
    (cacheAdd (initCache 2 true) (GoKey.str "k") 1).isSome = true ∧
    ((cacheAdd (initCache 2 true) (GoKey.str "k") 1).bind
      (fun r => cacheAdd r.1 (GoKey.str "k") 2)) = none ∧
    ((cacheAdd (initCache 2 true) (GoKey.str "k") 1).map
      (fun r => cachePeek r.1 (GoKey.str "k"))) = some (some 1, true) :=
  ⟨rfl, rfl, rfl⟩

/-- C1 (scenario S2): with `NewWithEvict(1, onEvict)`, `Add("1", 1)` returns
`false`, `Add("2", 2)` returns `true`, and once the asynchronous insertions
and the signalled eviction worker have run, `onEvict` has been invoked
exactly once with `("1", 1)` and `Len() == 1`. -/
theorem capacity_one_scenario :
    ((cacheAdd (initCache 1 true) (GoKey.str "1") 1).bind (fun r1 =>
      (cacheAdd (cacheQuiesce r1.1) (GoKey.str "2") 2).map (fun r2 =>
        (r1.2, r2.2,
          cacheLen (cleanupWorkerLoop (cacheQuiesce r2.1) 2),
          (cleanupWorkerLoop (cacheQuiesce r2.1) 2).evictLog)))) =
      some (false, true, 1, [("1", 1)]) := rfl

/-- C3: `Close` sets `capacity := 0` (under the cleanup mutex, broadcasting
the cleanup condition, closing the LRU list and joining the worker), and the
woken worker evicts every entry before taking its exit branch: the length
counter reaches `0`, every formerly resident entry is removed from the map,
and `onEvict` was invoked for each of them when configured. -/
theorem close_drains_cache (c : Cache) (h : CacheWF c) :
    (cacheClose c).capacity = 0 ∧
    (cleanupWorkerLoop (cacheClose c) ((c.lsys.seqs 0).length + 1)).clen = 0 ∧
    (cleanupWorkerLoop (cacheClose c) ((c.lsys.seqs 0).length + 1)).items = [] ∧
    (cleanupWorkerLoop (cacheClose c) ((c.lsys.seqs 0).length + 1)).capacity = 0 ∧
    (c.onEvictSet = true → ∀ p ∈ c.items, (p.1, (c.itemOf p.2).value) ∈
      (cleanupWorkerLoop (cacheClose c) ((c.lsys.seqs 0).length + 1)).evictLog) := by
  have hwf : CacheWF (cacheClose c) :=
    ⟨h.oneList, h.qEmpty, h.lenSeq, h.seqOwner0, h.seqNodup0, h.itemsLen,
     h.valInj, h.residentSeq, h.residentItems, h.keysNodup⟩
  obtain ⟨g1, g2, g3, g4, g5⟩ :=
    worker_drains (c.lsys.seqs 0).length (cacheClose c) hwf rfl rfl
  exact ⟨rfl, g1, g2, g3, g5⟩

theorem initCache_wf (size : Int) (onEvict : Bool) :
    CacheWF (initCache size onEvict) := by
  refine ⟨rfl, rfl, rfl, ?_, ?_, rfl, ?_, ?_, ?_, ?_⟩ <;>
    simp [initCache, lruNew]

theorem close_drains_cache_witness :
    (cacheClose (initCache 1 true)).capacity = 0 ∧
    (cleanupWorkerLoop (cacheClose (initCache 1 true))
      (((initCache 1 true).lsys.seqs 0).length + 1)).clen = 0 ∧
    (cleanupWorkerLoop (cacheClose (initCache 1 true))
      (((initCache 1 true).lsys.seqs 0).length + 1)).items = [] ∧
    (cleanupWorkerLoop (cacheClose (initCache 1 true))
      (((initCache 1 true).lsys.seqs 0).length + 1)).capacity = 0 ∧
    ((initCache 1 true).onEvictSet = true → ∀ p ∈ (initCache 1 true).items,
      (p.1, ((initCache 1 true).itemOf p.2).value) ∈
      (cleanupWorkerLoop (cacheClose (initCache 1 true))
        (((initCache 1 true).lsys.seqs 0).length + 1)).evictLog) :=
  close_drains_cache (initCache 1 true) (initCache_wf 1 true)

/-! ### Chain lemmas for the general list -/

theorem chain_congr {nf pf nf' pf' : Nat → Option Nat} :
    ∀ (l : List Nat), List.Chain' (adjR nf pf) l →
    (∀ x ∈ l.dropLast, nf' x = nf x) →
    (∀ x ∈ l.tail, pf' x = pf x) →
    List.Chain' (adjR nf' pf') l := by
  intro l
  induction l with
  | nil => intro _ _ _; exact List.chain'_nil
  | cons a t ih =>
    intro h hn hp
    cases t with
    | nil => exact List.chain'_singleton a
    | cons b t' =>
      rw [List.chain'_cons] at h ⊢
      refine ⟨⟨?_, ?_⟩, ?_⟩
      · rw [hn a (by simp [List.dropLast])]
        exact h.1.1
      · rw [hp b (by simp)]
        exact h.1.2
      · refine ih h.2 ?_ ?_
        · intro x hx
          refine hn x ?_
          rcases t' with _ | ⟨u, t''⟩
          · simp at hx
          · simp only [List.dropLast_cons₂, List.mem_cons] at hx ⊢
            exact Or.inr hx
        · intro x hx
          exact hp x (List.mem_cons_of_mem _ hx)

theorem chain_surgery_insert {nf pf : Nat → Option Nat} (A B' : List Nat)
    (a e n : Nat)
    (hchain : List.Chain' (adjR nf pf) (A ++ a :: n :: B'))
    (hnd : (A ++ a :: n :: B').Nodup)
    (he : e ∉ A ++ a :: n :: B') :
    List.Chain'
      (adjR (Function.update (Function.update nf a (some e)) e (some n))
            (Function.update (Function.update pf e (some a)) n (some e)))
      (A ++ a :: e :: n :: B') := by
  have hea : e ≠ a := by intro hc; subst hc; simp at he
  have hen : e ≠ n := by intro hc; subst hc; simp at he
  have heA : e ∉ A := fun hc => he (List.mem_append_left _ hc)
  have heB : e ∉ B' := fun hc =>
    he (List.mem_append_right _ (by simp [hc]))
  rw [List.nodup_append] at hnd
  have haA : a ∉ A := fun hc => hnd.2.2 hc (by simp)
  have hnA : n ∉ A := fun hc => hnd.2.2 hc (by simp)
  have hcons := hnd.2.1
  rw [List.nodup_cons] at hcons
  have han : a ≠ n := fun hc => hcons.1 (by simp [hc])
  have haB : a ∉ B' := fun hc => hcons.1 (by simp [hc])
  have hncons := hcons.2
  rw [List.nodup_cons] at hncons
  have hnB : n ∉ B' := hncons.1
  rw [List.chain'_append_cons_cons] at hchain
  have htarget : A ++ a :: e :: n :: B' = (A ++ [a]) ++ e :: n :: B' := by
    simp
  rw [htarget, List.chain'_append_cons_cons]
  refine ⟨?_, ⟨?_, ?_⟩, ?_⟩
  · have h2 : A ++ [a] ++ [e] = A ++ a :: e :: ([] : List Nat) := by simp
    rw [h2, List.chain'_append_cons_cons]
    refine ⟨?_, ⟨?_, ?_⟩, List.chain'_singleton e⟩
    · refine chain_congr _ hchain.1 ?_ ?_
      · intro x hx
        have hlast : (A ++ [a]).dropLast = A := by simp
        rw [hlast] at hx
        have hxa : x ≠ a := fun hc => haA (hc ▸ hx)
        have hxe : x ≠ e := fun hc => heA (hc ▸ hx)
        rw [Function.update_noteq hxe, Function.update_noteq hxa]
      · intro x hx
        have hxmem : x ∈ A ++ [a] := List.mem_of_mem_tail hx
        have hxn : x ≠ n := by
          intro hc
          rw [hc] at hxmem
          rcases List.mem_append.mp hxmem with h1 | h1
          · exact hnA h1
          · exact han (List.mem_singleton.mp h1).symm
        have hxe : x ≠ e := by
          intro hc
          rw [hc] at hxmem
          rcases List.mem_append.mp hxmem with h1 | h1
          · exact heA h1
          · exact hea (List.mem_singleton.mp h1)
        rw [Function.update_noteq hxn, Function.update_noteq hxe]
    · rw [Function.update_noteq (Ne.symm hea), Function.update_same]
    · rw [Function.update_noteq hen, Function.update_same]
  · rw [Function.update_same]
  · rw [Function.update_same]
  · refine chain_congr _ hchain.2.2 ?_ ?_
    · intro x hx
      have hxmem : x ∈ n :: B' := List.mem_of_mem_dropLast hx
      have hxe : x ≠ e := by
        intro hc
        rw [hc] at hxmem
        rcases List.mem_cons.mp hxmem with h1 | h1
        · exact hen h1
        · exact heB h1
      have hxa : x ≠ a := by
        intro hc
        rw [hc] at hxmem
        rcases List.mem_cons.mp hxmem with h1 | h1
        · exact han h1
        · exact haB h1
      rw [Function.update_noteq hxe, Function.update_noteq hxa]
    · intro x hx
      simp only [List.tail_cons] at hx
      have hxn : x ≠ n := fun hc => hnB (hc ▸ hx)
      have hxe : x ≠ e := fun hc => heB (hc ▸ hx)
      rw [Function.update_noteq hxn, Function.update_noteq hxe]

theorem chain_surgery_remove {nf pf : Nat → Option Nat} (A B' : List Nat)
    (p e n : Nat)
    (hchain : List.Chain' (adjR nf pf) (A ++ p :: e :: n :: B'))
    (hnd : (A ++ p :: e :: n :: B').Nodup) :
    List.Chain'
      (adjR (Function.update (Function.update nf p (some n)) e none)
            (Function.update (Function.update pf n (some p)) e none))
      (A ++ p :: n :: B') := by
  rw [List.nodup_append] at hnd
  have hpA : p ∉ A := fun hc => hnd.2.2 hc (by simp)
  have heA : e ∉ A := fun hc => hnd.2.2 hc (by simp)
  have hnA : n ∉ A := fun hc => hnd.2.2 hc (by simp)
  have hcons := hnd.2.1
  rw [List.nodup_cons] at hcons
  have hpe : p ≠ e := fun hc => hcons.1 (by simp [hc])
  have hpn : p ≠ n := fun hc => hcons.1 (by simp [hc])
  have hpB : p ∉ B' := fun hc => hcons.1 (by simp [hc])
  have hecons := hcons.2
  rw [List.nodup_cons] at hecons
  have hen : e ≠ n := fun hc => hecons.1 (by simp [hc])
  have heB : e ∉ B' := fun hc => hecons.1 (by simp [hc])
  have hnB : n ∉ B' := by
    have := hecons.2
    rw [List.nodup_cons] at this
    exact this.1
  rw [List.chain'_append_cons_cons] at hchain
  have hApre := hchain.1
  have hrest := hchain.2.2
  rw [List.chain'_cons] at hrest
  have hnrest := hrest.2
  rw [List.chain'_append_cons_cons]
  refine ⟨?_, ⟨?_, ?_⟩, ?_⟩
  · refine chain_congr _ hApre ?_ ?_
    · intro x hx
      have hlast : (A ++ [p]).dropLast = A := by simp
      rw [hlast] at hx
      have hxp : x ≠ p := fun hc => hpA (hc ▸ hx)
      have hxe : x ≠ e := fun hc => heA (hc ▸ hx)
      rw [Function.update_noteq hxe, Function.update_noteq hxp]
    · intro x hx
      have hxmem : x ∈ A ++ [p] := List.mem_of_mem_tail hx
      have hxn : x ≠ n := by
        intro hc
        rw [hc] at hxmem
        rcases List.mem_append.mp hxmem with h1 | h1
        · exact hnA h1
        · exact hpn (List.mem_singleton.mp h1).symm
      have hxe : x ≠ e := by
        intro hc
        rw [hc] at hxmem
        rcases List.mem_append.mp hxmem with h1 | h1
        · exact heA h1
        · exact hpe (List.mem_singleton.mp h1).symm
      rw [Function.update_noteq hxe, Function.update_noteq hxn]
  · rw [Function.update_noteq hpe, Function.update_same]
  · rw [Function.update_noteq (Ne.symm hen), Function.update_same]
  · refine chain_congr _ hnrest ?_ ?_
    · intro x hx
      have hxmem : x ∈ n :: B' := List.mem_of_mem_dropLast hx
      have hxe : x ≠ e := by
        intro hc
        rw [hc] at hxmem
        rcases List.mem_cons.mp hxmem with h1 | h1
        · exact hen h1
        · exact heB h1
      have hxp : x ≠ p := by
        intro hc
        rw [hc] at hxmem
        rcases List.mem_cons.mp hxmem with h1 | h1
        · exact hpn h1
        · exact hpB h1
      rw [Function.update_noteq hxe, Function.update_noteq hxp]
    · intro x hx
      simp only [List.tail_cons] at hx
      have hxn : x ≠ n := fun hc => hnB (hc ▸ hx)
      have hxe : x ≠ e := fun hc => heB (hc ▸ hx)
      rw [Function.update_noteq hxe, Function.update_noteq hxn]

theorem mem_fullSeq {c : List Nat} {x : Nat} :
    x ∈ fullSeq c ↔ x = 0 ∨ x ∈ c ∨ x = 1 := by
  simp [fullSeq, or_assoc]

/-- Decompose the full sequence around a node `at_` that has a successor
(`at_` is the head sentinel or a data node), and build the chain obtained by
inserting a node `e` right after `at_`. -/
theorem decomp_after (c : List Nat) (at_ e : Nat) (hat : at_ = 0 ∨ at_ ∈ c) :
    ∃ A n B' c', fullSeq c = A ++ at_ :: n :: B' ∧
      fullSeq c' = A ++ at_ :: e :: n :: B' ∧
      (∀ x, x ∈ c' ↔ x ∈ c ∨ x = e) ∧ c'.length = c.length + 1 := by
  rcases hat with hat | hat
  · subst hat
    cases c with
    | nil =>
      refine ⟨[], 1, [], [e], by simp [fullSeq], by simp [fullSeq],
        by intro x; simp; try tauto, by simp⟩
    | cons b t =>
      refine ⟨[], b, t ++ [1], e :: b :: t, by simp [fullSeq],
        by simp [fullSeq], by intro x; simp; try tauto, by simp⟩
  · obtain ⟨c₁, c₂, rfl⟩ := List.append_of_mem hat
    cases c₂ with
    | nil =>
      refine ⟨0 :: c₁, 1, [], c₁ ++ [at_, e], by simp [fullSeq],
        by simp [fullSeq], by intro x; simp; try tauto, by simp⟩
    | cons b t =>
      refine ⟨0 :: c₁, b, t ++ [1], c₁ ++ at_ :: e :: b :: t,
        by simp [fullSeq], by simp [fullSeq],
        by intro x; simp; try tauto, by simp; try omega⟩

/-- Decompose the full sequence around a node `at_` that has a predecessor
(`at_` is the tail sentinel or a data node), and build the chain obtained by
inserting a node `e` right before `at_`. -/
theorem decomp_before (c : List Nat) (at_ e : Nat) (hat : at_ ∈ c ∨ at_ = 1) :
    ∃ A p B' c', fullSeq c = A ++ p :: at_ :: B' ∧
      fullSeq c' = A ++ p :: e :: at_ :: B' ∧
      (∀ x, x ∈ c' ↔ x ∈ c ∨ x = e) ∧ c'.length = c.length + 1 := by
  rcases hat with hat | hat
  · obtain ⟨c₁, c₂, rfl⟩ := List.append_of_mem hat
    rcases List.eq_nil_or_concat c₁ with rfl | ⟨c₁', p, hc₁⟩
    · refine ⟨[], 0, c₂ ++ [1], e :: at_ :: c₂, by simp [fullSeq],
        by simp [fullSeq], by intro x; simp; try tauto, by simp⟩
    · rw [List.concat_eq_append] at hc₁
      subst hc₁
      refine ⟨0 :: c₁', p, c₂ ++ [1], c₁' ++ p :: e :: at_ :: c₂,
        by simp [fullSeq], by simp [fullSeq],
        by intro x; simp; try tauto, by simp; try omega⟩
  · subst hat
    rcases List.eq_nil_or_concat c with rfl | ⟨c₁, p, hc₁⟩
    · refine ⟨[], 0, [], [e], by simp [fullSeq], by simp [fullSeq],
        by intro x; simp; try tauto, by simp⟩
    · rw [List.concat_eq_append] at hc₁
      subst hc₁
      refine ⟨0 :: c₁, p, [], c₁ ++ [p, e], by simp [fullSeq],
        by simp [fullSeq], by intro x; simp; try tauto, by simp⟩

/-- Decompose the full sequence around a data node `e ∈ c`, exposing its
predecessor and successor, and build the chain with `e` removed. -/
theorem decomp_mid (c : List Nat) (e : Nat) (he : e ∈ c) :
    ∃ A p n B' c', fullSeq c = A ++ p :: e :: n :: B' ∧
      fullSeq c' = A ++ p :: n :: B' ∧
      (∀ x, x ∈ c' → x ∈ c) ∧ (∀ x, x ∈ c → x = e ∨ x ∈ c') ∧
      (c.Nodup → e ∉ c') ∧ c.length = c'.length + 1 := by
  obtain ⟨c₁, c₂, rfl⟩ := List.append_of_mem he
  rcases List.eq_nil_or_concat c₁ with rfl | ⟨c₁', p, hc₁⟩
  · cases c₂ with
    | nil =>
      refine ⟨[], 0, 1, [], [], by simp [fullSeq], by simp [fullSeq],
        by simp, by simp, by simp, by simp⟩
    | cons b t =>
      refine ⟨[], 0, b, t ++ [1], b :: t, by simp [fullSeq],
        by simp [fullSeq], by intro x hx; simp at hx ⊢; try tauto,
        by intro x hx; simp at hx ⊢; try tauto, ?_, by simp⟩
      intro hnd
      simp only [List.nil_append, List.nodup_cons] at hnd
      exact hnd.1
  · rw [List.concat_eq_append] at hc₁
    subst hc₁
    cases c₂ with
    | nil =>
      refine ⟨0 :: c₁', p, 1, [], c₁' ++ [p], by simp [fullSeq],
        by simp [fullSeq], by intro x hx; simp at hx ⊢; try tauto,
        by intro x hx; simp at hx ⊢; try tauto, ?_, by simp⟩
      intro hnd hmem
      rw [List.nodup_append] at hnd
      exact hnd.2.2 hmem (List.mem_singleton_self e)
    | cons b t =>
      refine ⟨0 :: c₁', p, b, t ++ [1], c₁' ++ p :: b :: t,
        by simp [fullSeq], by simp [fullSeq],
        by intro x hx; simp at hx ⊢; try tauto,
        by intro x hx; simp at hx ⊢; try tauto, ?_, by simp; try omega⟩
      intro hnd hmem
      rw [List.nodup_append] at hnd
      rcases List.mem_append.mp hmem with h1 | h1
      · exact hnd.2.2 (List.mem_append_left _ h1) (by simp)
      · rcases List.mem_cons.mp h1 with h2 | h2
        · have hmem2 : e ∈ c₁' ++ [p] := by
            rw [h2]
            exact List.mem_append_right _ (List.mem_singleton_self p)
          exact hnd.2.2 hmem2 (by simp)
        · have := hnd.2.1
          rw [List.nodup_cons] at this
          exact this.1 h2

theorem adj_of_decomp {s : GList} {F A B : List Nat} {a b : Nat}
    (h : List.Chain' (adjR s.nextF s.prevF) F) (hF : F = A ++ a :: b :: B) :
    s.nextF a = some b ∧ s.prevF b = some a := by
  subst hF
  exact (List.chain'_append_cons_cons.mp h).2.1

theorem nodup_insert2 {A B' : List Nat} {a n e : Nat}
    (h : (A ++ a :: n :: B').Nodup) (he : e ∉ A ++ a :: n :: B') :
    (A ++ a :: e :: n :: B').Nodup := by
  have h2 : A ++ a :: e :: n :: B' = (A ++ [a]) ++ e :: (n :: B') := by simp
  rw [h2, List.nodup_middle, List.nodup_cons]
  constructor
  · intro hc
    apply he
    rcases List.mem_append.mp hc with h1 | h1
    · rcases List.mem_append.mp h1 with h3 | h3
      · exact List.mem_append_left _ h3
      · exact List.mem_append_right _ (by simp [List.mem_singleton.mp h3])
    · exact List.mem_append_right _ (List.mem_cons_of_mem _ h1)
  · simpa using h

theorem one_not_mem_of_nodup {c : List Nat} (h : (fullSeq c).Nodup) : 1 ∉ c := by
  have h2 : fullSeq c = (0 :: c) ++ [1] := by simp [fullSeq]
  rw [h2, List.nodup_append] at h
  exact fun hc => h.2.2 (List.mem_cons_of_mem _ hc) (List.mem_singleton_self 1)

theorem zero_not_mem_of_nodup {c : List Nat} (h : (fullSeq c).Nodup) : 0 ∉ c := by
  have heq : fullSeq c = (0 :: c) ++ [1] := by simp [fullSeq]
  have h2 := h
  rw [heq, List.nodup_append] at h2
  have h3 := h2.1
  rw [List.nodup_cons] at h3
  exact h3.1

theorem fwdWalkAux_spec (s : GList) :
    ∀ (c₂ : List Nat) (cur : Nat),
    List.Chain' (adjR s.nextF s.prevF) (cur :: c₂ ++ [1]) → 1 ∉ c₂ →
    fwdWalkAux s c₂.length cur = c₂ := by
  intro c₂
  induction c₂ with
  | nil => intro cur _ _; rfl
  | cons b t ih =>
    intro cur h h1
    have h' : List.Chain' (adjR s.nextF s.prevF) (cur :: b :: (t ++ [1])) := by
      simpa using h
    rw [List.chain'_cons] at h'
    have hb1 : b ≠ 1 := fun hc => h1 (by simp [hc])
    show fwdWalkAux s (t.length + 1) cur = b :: t
    simp only [fwdWalkAux, h'.1.1]
    rw [if_neg hb1]
    congr 1
    exact ih b h'.2 (fun hc => h1 (List.mem_cons_of_mem _ hc))

theorem fwdWalk_eq {s : GList} {c : List Nat} (h : WFGc s c) : fwdWalk s = c := by
  have hlen : s.glen.toNat = c.length := by
    rw [h.lenEq]
    exact Int.toNat_natCast _
  unfold fwdWalk
  rw [hlen]
  apply fwdWalkAux_spec
  · have hl := h.links
    simpa [fullSeq] using hl
  · exact one_not_mem_of_nodup h.nodup

theorem bwdWalkAux_spec (s : GList) :
    ∀ (c₂ : List Nat) (cur : Nat),
    List.Chain' (fun a b => adjR s.nextF s.prevF b a) (cur :: c₂ ++ [0]) →
    0 ∉ c₂ →
    bwdWalkAux s c₂.length cur = c₂ := by
  intro c₂
  induction c₂ with
  | nil => intro cur _ _; rfl
  | cons b t ih =>
    intro cur h h1
    have h' : List.Chain' (fun a b => adjR s.nextF s.prevF b a)
        (cur :: b :: (t ++ [0])) := by
      simpa using h
    rw [List.chain'_cons] at h'
    have hb0 : b ≠ 0 := fun hc => h1 (by simp [hc])
    show bwdWalkAux s (t.length + 1) cur = b :: t
    simp only [bwdWalkAux, h'.1.2]
    rw [if_neg hb0]
    congr 1
    exact ih b h'.2 (fun hc => h1 (List.mem_cons_of_mem _ hc))

theorem bwdWalk_eq {s : GList} {c : List Nat} (h : WFGc s c) :
    bwdWalk s = c.reverse := by
  have hlen : s.glen.toNat = c.reverse.length := by
    rw [h.lenEq, List.length_reverse]
    exact Int.toNat_natCast _
  unfold bwdWalk
  rw [hlen]
  apply bwdWalkAux_spec
  · have hl : List.Chain' (fun a b => adjR s.nextF s.prevF b a)
        ((fullSeq c).reverse) := by
      rw [List.chain'_reverse]
      exact h.links
    have hrev : (fullSeq c).reverse = 1 :: c.reverse ++ [0] := by
      simp [fullSeq]
    rw [hrev] at hl
    exact hl
  · intro hc
    exact zero_not_mem_of_nodup h.nodup (List.mem_reverse.mp hc)

theorem WFGc_update_listOf {s : GList} {c : List Nat} (h : WFGc s c) {e : Nat}
    (hec : e ∉ c) (he0 : e ≠ 0) (he1 : e ≠ 1) (v : Option Nat) :
    WFGc { s with listOf := Function.update s.listOf e v } c := by
  refine ⟨h.nodup, h.links, h.prevHead, h.nextTail, ?_, ?_, ?_, h.detached,
    h.lenEq, h.bounded, h.alloc2⟩
  · intro x hx
    have hxe : x ≠ e := fun hc => hec (hc ▸ hx)
    show Function.update s.listOf e v x = some 0
    rw [Function.update_noteq hxe]
    exact h.memList x hx
  · show Function.update s.listOf e v 0 = some 0
    rw [Function.update_noteq (Ne.symm he0)]
    exact h.headList
  · show Function.update s.listOf e v 1 = some 0
    rw [Function.update_noteq (Ne.symm he1)]
    exact h.tailList

/-- `insertAfter` with a fresh node `e` preserves well-formedness, for every
mark (on failure only `e.list` is set — the node leaks detached). -/
theorem gInsertAfter_wf (s : GList) (c : List Nat) (h : WFGc s c) (e at_ : Nat)
    (he2 : 2 ≤ e) (healloc : e < s.nAlloc) (hec : e ∉ c) :
    ∃ c2, WFGc (gInsertAfter s e at_).1 c2 := by
  have he0 : e ≠ 0 := by omega
  have he1 : e ≠ 1 := by omega
  have h1 : WFGc { s with listOf := Function.update s.listOf e (some 0) } c :=
    WFGc_update_listOf h hec he0 he1 (some 0)
  rcases hnext : s.nextF at_ with _ | n
  · refine ⟨c, ?_⟩
    have hred : (gInsertAfter s e at_).1 =
        { s with listOf := Function.update s.listOf e (some 0) } := by
      simp [gInsertAfter, hnext]
    rw [hred]
    exact h1
  · have hate : at_ ≠ e := by
      intro hc
      rw [hc, (h.detached e hec he0 he1).1] at hnext
      exact Option.noConfusion hnext
    by_cases hat : s.listOf at_ = some 0
    · -- successful insertion
      have hcond : Function.update s.listOf e (some 0) at_ = some 0 := by
        rw [Function.update_noteq hate]
        exact hat
      have hred : (gInsertAfter s e at_).1 =
          { s with
              listOf := Function.update s.listOf e (some 0)
              nextF := Function.update (Function.update s.nextF at_ (some e)) e
                (some n)
              prevF := Function.update (Function.update s.prevF e (some at_)) n
                (some e)
              glen := s.glen + 1 } := by
        simp [gInsertAfter, hnext, hcond]
      have hat_mem : at_ = 0 ∨ at_ ∈ c := by
        by_cases h0 : at_ = 0
        · exact Or.inl h0
        · right
          by_cases h1' : at_ = 1
          · rw [h1', h.nextTail] at hnext
            exact Option.noConfusion hnext
          · by_contra hmem
            rw [(h.detached at_ hmem h0 h1').1] at hnext
            exact Option.noConfusion hnext
      obtain ⟨A, n', B', c2, hF, hF', hmem_iff, hlen'⟩ :=
        decomp_after c at_ e hat_mem
      have hadj := adj_of_decomp h.links hF
      have hn' : n' = n := by
        rw [hadj.1] at hnext
        exact Option.some.inj hnext
      rw [hn'] at hF hF' hadj
      have hefull : e ∉ fullSeq c := by
        rw [mem_fullSeq]
        push_neg
        exact ⟨he0, hec, he1⟩
      have hn0 : n ≠ 0 := by
        intro hc
        rw [hc, h.prevHead] at hadj
        exact Option.noConfusion hadj.2
      have hat1 : at_ ≠ 1 := by
        intro hc
        rw [hc, h.nextTail] at hnext
        exact Option.noConfusion hnext
      refine ⟨c2, ?_⟩
      rw [hred]
      have hndF := h.nodup
      rw [hF] at hndF
      have heF : e ∉ A ++ at_ :: n :: B' := by rw [← hF]; exact hefull
      refine ⟨?_, ?_, ?_, ?_, ?_, ?_, ?_, ?_, ?_, ?_, h.alloc2⟩
      · rw [hF']
        exact nodup_insert2 hndF heF
      · show List.Chain' _ (fullSeq c2)
        rw [hF']
        exact chain_surgery_insert A B' at_ e n (hF ▸ h.links) hndF heF
      · show Function.update (Function.update s.prevF e (some at_)) n (some e) 0
            = none
        rw [Function.update_noteq (Ne.symm hn0),
          Function.update_noteq (Ne.symm he0)]
        exact h.prevHead
      · show Function.update (Function.update s.nextF at_ (some e)) e (some n) 1
            = none
        rw [Function.update_noteq (Ne.symm he1),
          Function.update_noteq (Ne.symm hat1)]
        exact h.nextTail
      · intro x hx
        show Function.update s.listOf e (some 0) x = some 0
        rcases (hmem_iff x).mp hx with h2 | h2
        · have hxe : x ≠ e := fun hc => hec (hc ▸ h2)
          rw [Function.update_noteq hxe]
          exact h.memList x h2
        · rw [h2, Function.update_same]
      · show Function.update s.listOf e (some 0) 0 = some 0
        rw [Function.update_noteq (Ne.symm he0)]
        exact h.headList
      · show Function.update s.listOf e (some 0) 1 = some 0
        rw [Function.update_noteq (Ne.symm he1)]
        exact h.tailList
      · intro x hx hx0 hx1
        have hxc : x ∉ c := fun hc => hx ((hmem_iff x).mpr (Or.inl hc))
        have hxe : x ≠ e := fun hc => hx ((hmem_iff x).mpr (Or.inr hc))
        have hdet := h.detached x hxc hx0 hx1
        have hxat : x ≠ at_ := by
          intro hc
          rcases hat_mem with h2 | h2
          · exact hx0 (hc.trans h2)
          · exact hxc (hc ▸ h2)
        have hxn : x ≠ n := by
          intro hc
          rw [← hc] at hadj
          rw [hdet.2] at hadj
          exact Option.noConfusion hadj.2
        constructor
        · show Function.update (Function.update s.nextF at_ (some e)) e (some n) x
              = none
          rw [Function.update_noteq hxe, Function.update_noteq hxat]
          exact hdet.1
        · show Function.update (Function.update s.prevF e (some at_)) n (some e) x
              = none
          rw [Function.update_noteq hxn, Function.update_noteq hxe]
          exact hdet.2
      · show s.glen + 1 = (c2.length : Int)
        rw [hlen', h.lenEq]
        push_cast
        ring
      · intro x hx
        rcases (hmem_iff x).mp hx with h2 | h2
        · exact h.bounded x h2
        · rw [h2]
          exact ⟨he2, healloc⟩
    · -- mark not in this list: no-op apart from the leaked list pointer
      refine ⟨c, ?_⟩
      have hcond : Function.update s.listOf e (some 0) at_ ≠ some 0 := by
        rw [Function.update_noteq hate]
        exact hat
      have hred : (gInsertAfter s e at_).1 =
          { s with listOf := Function.update s.listOf e (some 0) } := by
        simp [gInsertAfter, hnext, hcond]
      rw [hred]
      exact h1

theorem gPred_some {s : GList} {x p : Nat} (h : gPred s x = some p) :
    s.listOf x = some 0 ∧ s.prevF x = some p ∧ s.nextF p = some x := by
  unfold gPred at h
  by_cases hl : s.listOf x = some 0
  · rw [if_pos hl] at h
    rcases hp : s.prevF x with _ | q
    · rw [hp] at h
      have h' : (none : Option Nat) = some p := h
      exact absurd h' (by simp)
    · rw [hp] at h
      have h' : (if s.nextF q = some x then (some q : Option Nat) else none)
          = some p := h
      by_cases hn : s.nextF q = some x
      · rw [if_pos hn] at h'
        obtain rfl : q = p := Option.some.inj h'
        exact ⟨hl, rfl, hn⟩
      · rw [if_neg hn] at h'
        exact absurd h' (by simp)
  · rw [if_neg hl] at h
    exact absurd h (by simp)

theorem chain_nodup {c : List Nat} (h : (fullSeq c).Nodup) : c.Nodup := by
  have heq : fullSeq c = (0 :: c) ++ [1] := by simp [fullSeq]
  rw [heq, List.nodup_append] at h
  have h2 := h.1
  rw [List.nodup_cons] at h2
  exact h2.2

theorem nAlloc_not_mem {s : GList} {c : List Nat} (h : WFGc s c) :
    s.nAlloc ∉ c := fun hc => absurd (h.bounded _ hc).2 (lt_irrefl _)

/-- `insertValueAfter` preserves well-formedness for every mark. -/
theorem gInsertValueAfter_wf (s : GList) (c : List Nat) (h : WFGc s c)
    (v : Int) (at_ : Nat) : ∃ c2, WFGc (gInsertValueAfter s v at_).1 c2 := by
  have h0 : WFGc { s with
      nAlloc := s.nAlloc + 1
      valOf := Function.update s.valOf s.nAlloc v } c := by
    refine ⟨h.nodup, h.links, h.prevHead, h.nextTail, h.memList, h.headList,
      h.tailList, h.detached, h.lenEq, ?_, ?_⟩
    · intro x hx
      refine ⟨(h.bounded x hx).1, ?_⟩
      show x < s.nAlloc + 1
      have := (h.bounded x hx).2
      omega
    · show 2 ≤ s.nAlloc + 1
      have := h.alloc2
      omega
  have hres := gInsertAfter_wf _ c h0 s.nAlloc at_ h.alloc2
    (by show s.nAlloc < s.nAlloc + 1; omega) (nAlloc_not_mem h)
  exact hres

/-- `insertBefore` with a fresh node `e` preserves well-formedness, for every
mark. -/
theorem gInsertBefore_wf (s : GList) (c : List Nat) (h : WFGc s c) (e at_ : Nat)
    (he2 : 2 ≤ e) (healloc : e < s.nAlloc) (hec : e ∉ c) :
    ∃ c2, WFGc (gInsertBefore s e at_).1 c2 := by
  have he0 : e ≠ 0 := by omega
  have he1 : e ≠ 1 := by omega
  have h1 : WFGc { s with listOf := Function.update s.listOf e (some 0) } c :=
    WFGc_update_listOf h hec he0 he1 (some 0)
  rcases hpred : gPred { s with listOf := Function.update s.listOf e (some 0) }
      at_ with _ | p
  · refine ⟨c, ?_⟩
    have hred : (gInsertBefore s e at_).1 =
        { s with listOf := Function.update s.listOf e (some 0) } := by
      simp [gInsertBefore, hpred]
    rw [hred]
    exact h1
  · obtain ⟨hplist, hpprev, hpnext⟩ := gPred_some hpred
    have hpprev' : s.prevF at_ = some p := hpprev
    have hpnext' : s.nextF p = some at_ := hpnext
    have hate : at_ ≠ e := by
      intro hc
      rw [hc, (h.detached e hec he0 he1).2] at hpprev'
      exact Option.noConfusion hpprev'
    have hat0 : at_ ≠ 0 := by
      intro hc
      rw [hc, h.prevHead] at hpprev'
      exact Option.noConfusion hpprev'
    have hat_mem : at_ ∈ c ∨ at_ = 1 := by
      by_cases h1' : at_ = 1
      · exact Or.inr h1'
      · left
        by_contra hmem
        rw [(h.detached at_ hmem hat0 h1').2] at hpprev'
        exact Option.noConfusion hpprev'
    obtain ⟨A, p', B', c2, hF, hF', hmem_iff, hlen'⟩ :=
      decomp_before c at_ e hat_mem
    have hadj := adj_of_decomp h.links hF
    have hp' : p' = p := by
      rw [hadj.2] at hpprev'
      exact Option.some.inj hpprev'
    rw [hp'] at hF hF' hadj
    have hefull : e ∉ fullSeq c := by
      rw [mem_fullSeq]
      push_neg
      exact ⟨he0, hec, he1⟩
    have hp1 : p ≠ 1 := by
      intro hc
      rw [hc, h.nextTail] at hpnext'
      exact Option.noConfusion hpnext'
    refine ⟨c2, ?_⟩
    have hred : (gInsertBefore s e at_).1 =
        { s with
            listOf := Function.update s.listOf e (some 0)
            nextF := Function.update (Function.update s.nextF p (some e)) e
              (some at_)
            prevF := Function.update (Function.update s.prevF at_ (some e)) e
              (some p)
            glen := s.glen + 1 } := by
      simp [gInsertBefore, hpred]
    rw [hred]
    have hndF := h.nodup
    rw [hF] at hndF
    have heF : e ∉ A ++ p :: at_ :: B' := by rw [← hF]; exact hefull
    refine ⟨?_, ?_, ?_, ?_, ?_, ?_, ?_, ?_, ?_, ?_, h.alloc2⟩
    · rw [hF']
      exact nodup_insert2 hndF heF
    · show List.Chain' _ (fullSeq c2)
      rw [hF']
      have hcomm : Function.update (Function.update s.prevF at_ (some e)) e
          (some p) = Function.update (Function.update s.prevF e (some p)) at_
          (some e) := Function.update_comm hate _ _ _
      rw [hcomm]
      exact chain_surgery_insert A B' p e at_ (hF ▸ h.links) hndF heF
    · show Function.update (Function.update s.prevF at_ (some e)) e (some p) 0
          = none
      rw [Function.update_noteq (Ne.symm he0),
        Function.update_noteq (Ne.symm hat0)]
      exact h.prevHead
    · show Function.update (Function.update s.nextF p (some e)) e (some at_) 1
          = none
      rw [Function.update_noteq (Ne.symm he1),
        Function.update_noteq (Ne.symm hp1)]
      exact h.nextTail
    · intro x hx
      show Function.update s.listOf e (some 0) x = some 0
      rcases (hmem_iff x).mp hx with h2 | h2
      · have hxe : x ≠ e := fun hc => hec (hc ▸ h2)
        rw [Function.update_noteq hxe]
        exact h.memList x h2
      · rw [h2, Function.update_same]
    · show Function.update s.listOf e (some 0) 0 = some 0
      rw [Function.update_noteq (Ne.symm he0)]
      exact h.headList
    · show Function.update s.listOf e (some 0) 1 = some 0
      rw [Function.update_noteq (Ne.symm he1)]
      exact h.tailList
    · intro x hx hx0 hx1
      have hxc : x ∉ c := fun hc => hx ((hmem_iff x).mpr (Or.inl hc))
      have hxe : x ≠ e := fun hc => hx ((hmem_iff x).mpr (Or.inr hc))
      have hdet := h.detached x hxc hx0 hx1
      have hxat : x ≠ at_ := by
        intro hc
        rcases hat_mem with h2 | h2
        · exact hxc (hc ▸ h2)
        · exact hx1 (hc.trans h2)
      have hxp : x ≠ p := by
        intro hc
        rw [← hc] at hpnext'
        rw [hdet.1] at hpnext'
        exact Option.noConfusion hpnext'
      constructor
      · show Function.update (Function.update s.nextF p (some e)) e (some at_) x
            = none
        rw [Function.update_noteq hxe, Function.update_noteq hxp]
        exact hdet.1
      · show Function.update (Function.update s.prevF at_ (some e)) e (some p) x
            = none
        rw [Function.update_noteq hxe, Function.update_noteq hxat]
        exact hdet.2
    · show s.glen + 1 = (c2.length : Int)
      rw [hlen', h.lenEq]
      push_cast
      ring
    · intro x hx
      rcases (hmem_iff x).mp hx with h2 | h2
      · exact h.bounded x h2
      · rw [h2]
        exact ⟨he2, healloc⟩

/-- `insertValueBefore` preserves well-formedness for every mark. -/
theorem gInsertValueBefore_wf (s : GList) (c : List Nat) (h : WFGc s c)
    (v : Int) (at_ : Nat) : ∃ c2, WFGc (gInsertValueBefore s v at_).1 c2 := by
  have h0 : WFGc { s with
      nAlloc := s.nAlloc + 1
      valOf := Function.update s.valOf s.nAlloc v } c := by
    refine ⟨h.nodup, h.links, h.prevHead, h.nextTail, h.memList, h.headList,
      h.tailList, h.detached, h.lenEq, ?_, ?_⟩
    · intro x hx
      refine ⟨(h.bounded x hx).1, ?_⟩
      show x < s.nAlloc + 1
      have := (h.bounded x hx).2
      omega
    · show 2 ≤ s.nAlloc + 1
      have := h.alloc2
      omega
  exact gInsertBefore_wf _ c h0 s.nAlloc at_ h.alloc2
    (by show s.nAlloc < s.nAlloc + 1; omega) (nAlloc_not_mem h)

/-- `remove(e)` for a node outside the data chain is a failing no-op
(this covers detached and foreign nodes; for the sentinels the underlying Go
code would fault rather than mutate). -/
theorem gRemove_not_mem (s : GList) (c : List Nat) (h : WFGc s c) (e : Nat)
    (hec : e ∉ c) : gRemove s e = (s, false) := by
  by_cases h0 : e = 0
  · subst h0
    have hpred : gPred s 0 = none := by
      unfold gPred
      rw [h.prevHead, if_pos h.headList]
    simp [gRemove, hpred]
  · by_cases h1 : e = 1
    · subst h1
      rcases hpred : gPred s 1 with _ | p
      · simp [gRemove, hpred]
      · simp [gRemove, hpred, h.nextTail]
    · have hdet := h.detached e hec h0 h1
      have hpred : gPred s e = none := by
        unfold gPred
        rw [hdet.2]
        split <;> rfl
      simp [gRemove, hpred]

/-- `remove(e)` for a data node of the chain succeeds, unlinks exactly `e`,
and preserves well-formedness. -/
theorem gRemove_mem_spec (s : GList) (c : List Nat) (h : WFGc s c) (e : Nat)
    (he : e ∈ c) :
    (gRemove s e).2 = true ∧ (gRemove s e).1.valOf = s.valOf ∧
    (gRemove s e).1.nAlloc = s.nAlloc ∧ (gRemove s e).1.listOf e = none ∧
    ∃ c2, WFGc (gRemove s e).1 c2 ∧ (∀ x, x ∈ c2 → x ∈ c) ∧ e ∉ c2 := by
  obtain ⟨A, p, n, B', c2, hF, hF', hsub, hsup, hnotin, hlen'⟩ :=
    decomp_mid c e he
  have he0 : e ≠ 0 := fun hc => zero_not_mem_of_nodup h.nodup (hc ▸ he)
  have he1 : e ≠ 1 := fun hc => one_not_mem_of_nodup h.nodup (hc ▸ he)
  have hch := h.links
  rw [hF] at hch
  have hndF := h.nodup
  rw [hF] at hndF
  have hFsplit : A ++ p :: e :: n :: B' = (A ++ [p]) ++ e :: n :: B' := by simp
  have hadj_pe := adj_of_decomp h.links hF
  have hadj_en := adj_of_decomp h.links (hF.trans hFsplit)
  have hpred : gPred s e = some p := by
    unfold gPred
    rw [if_pos (h.memList e he), hadj_pe.2]
    show (if s.nextF p = some e then (some p : Option Nat) else none) = some p
    rw [if_pos hadj_pe.1]
  have hred : gRemove s e =
      ({ s with
          glen := s.glen - 1
          nextF := Function.update (Function.update s.nextF p (some n)) e none
          prevF := Function.update (Function.update s.prevF n (some p)) e none
          listOf := Function.update s.listOf e none }, true) := by
    simp [gRemove, hpred, hadj_en.1]
  have hnodup_c : c.Nodup := chain_nodup h.nodup
  refine ⟨by rw [hred], by rw [hred], by rw [hred], ?_, c2, ?_, hsub, hnotin hnodup_c⟩
  · rw [hred]
    show Function.update s.listOf e none e = none
    rw [Function.update_same]
  · rw [hred]
    have hn0 : n ≠ 0 := by
      intro hc
      rw [hc, h.prevHead] at hadj_en
      exact Option.noConfusion hadj_en.2
    have hp1 : p ≠ 1 := by
      intro hc
      rw [hc, h.nextTail] at hadj_pe
      exact Option.noConfusion hadj_pe.1
    refine ⟨?_, ?_, ?_, ?_, ?_, ?_, ?_, ?_, ?_, ?_, h.alloc2⟩
    · rw [hF']
      have hsubl : List.Sublist (A ++ p :: n :: B') (A ++ p :: e :: n :: B') := by
        refine List.Sublist.append_left ?_ A
        exact (List.sublist_cons_self e (n :: B')).cons₂ p
      exact hndF.sublist hsubl
    · show List.Chain' _ (fullSeq c2)
      rw [hF']
      exact chain_surgery_remove A B' p e n hch hndF
    · show Function.update (Function.update s.prevF n (some p)) e none 0 = none
      rw [Function.update_noteq (Ne.symm he0),
        Function.update_noteq (Ne.symm hn0)]
      exact h.prevHead
    · show Function.update (Function.update s.nextF p (some n)) e none 1 = none
      rw [Function.update_noteq (Ne.symm he1),
        Function.update_noteq (Ne.symm hp1)]
      exact h.nextTail
    · intro x hx
      have hxc : x ∈ c := hsub x hx
      have hxe : x ≠ e := fun hc => (hnotin hnodup_c) (hc ▸ hx)
      show Function.update s.listOf e none x = some 0
      rw [Function.update_noteq hxe]
      exact h.memList x hxc
    · show Function.update s.listOf e none 0 = some 0
      rw [Function.update_noteq (Ne.symm he0)]
      exact h.headList
    · show Function.update s.listOf e none 1 = some 0
      rw [Function.update_noteq (Ne.symm he1)]
      exact h.tailList
    · intro x hx hx0 hx1
      by_cases hxe : x = e
      · subst hxe
        constructor
        · show Function.update (Function.update s.nextF p (some n)) x none x
              = none
          rw [Function.update_same]
        · show Function.update (Function.update s.prevF n (some p)) x none x
              = none
          rw [Function.update_same]
      · have hxc : x ∉ c := by
          intro hc
          rcases hsup x hc with h2 | h2
          · exact hxe h2
          · exact hx h2
        have hdet := h.detached x hxc hx0 hx1
        have hxp : x ≠ p := by
          intro hc
          rw [← hc] at hadj_pe
          rw [hdet.1] at hadj_pe
          exact Option.noConfusion hadj_pe.1
        have hxn : x ≠ n := by
          intro hc
          rw [← hc] at hadj_en
          rw [hdet.2] at hadj_en
          exact Option.noConfusion hadj_en.2
        constructor
        · show Function.update (Function.update s.nextF p (some n)) e none x
              = none
          rw [Function.update_noteq hxe, Function.update_noteq hxp]
          exact hdet.1
        · show Function.update (Function.update s.prevF n (some p)) e none x
              = none
          rw [Function.update_noteq hxe, Function.update_noteq hxn]
          exact hdet.2
    · show s.glen - 1 = (c2.length : Int)
      rw [h.lenEq, hlen']
      push_cast
      ring
    · intro x hx
      exact h.bounded x (hsub x hx)

/-- `moveAfter` preserves well-formedness for every pair of arguments. -/
theorem gMoveAfter_wf (s : GList) (c : List Nat) (h : WFGc s c) (e at_ : Nat) :
    ∃ c2, WFGc (gMoveAfter s e at_).1 c2 := by
  unfold gMoveAfter
  by_cases h1 : e = at_
  · rw [if_pos h1]
    exact ⟨c, h⟩
  · rw [if_neg h1]
    by_cases h2 : s.nextF at_ = some e
    · rw [if_pos h2]
      exact ⟨c, h⟩
    · rw [if_neg h2]
      by_cases h3 : s.listOf at_ ≠ some 0
      · rw [if_pos h3]
        exact ⟨c, h⟩
      · rw [if_neg h3]
        by_cases hmem : e ∈ c
        · obtain ⟨hsucc, _, hnal, _, c3, hwf3, hsub3, hnot3⟩ :=
            gRemove_mem_spec s c h e hmem
          show ∃ c2, WFGc
            (if (gRemove s e).2 = true then gInsertAfter (gRemove s e).1 e at_
             else ((gRemove s e).1, false)).1 c2
          rw [hsucc, if_pos rfl]
          refine gInsertAfter_wf _ c3 hwf3 e at_ (h.bounded e hmem).1 ?_ hnot3
          rw [hnal]
          exact (h.bounded e hmem).2
        · rw [gRemove_not_mem s c h e hmem]
          exact ⟨c, h⟩

/-- `moveBefore` preserves well-formedness for every pair of arguments. -/
theorem gMoveBefore_wf (s : GList) (c : List Nat) (h : WFGc s c) (e at_ : Nat) :
    ∃ c2, WFGc (gMoveBefore s e at_).1 c2 := by
  unfold gMoveBefore
  by_cases h1 : e = at_
  · rw [if_pos h1]
    exact ⟨c, h⟩
  · rw [if_neg h1]
    by_cases h2 : s.prevF at_ = some e
    · rw [if_pos h2]
      exact ⟨c, h⟩
    · rw [if_neg h2]
      by_cases h3 : s.listOf at_ ≠ some 0
      · rw [if_pos h3]
        exact ⟨c, h⟩
      · rw [if_neg h3]
        by_cases hmem : e ∈ c
        · obtain ⟨hsucc, _, hnal, _, c3, hwf3, hsub3, hnot3⟩ :=
            gRemove_mem_spec s c h e hmem
          show ∃ c2, WFGc
            (if (gRemove s e).2 = true then gInsertBefore (gRemove s e).1 e at_
             else ((gRemove s e).1, false)).1 c2
          rw [hsucc, if_pos rfl]
          refine gInsertBefore_wf _ c3 hwf3 e at_ (h.bounded e hmem).1 ?_ hnot3
          rw [hnal]
          exact (h.bounded e hmem).2
        · rw [gRemove_not_mem s c h e hmem]
          exact ⟨c, h⟩

/-- On a well-formed list, `lazyInit(false)` is the identity: either the
length is non-zero, or the list is empty and the re-initialisation rewrites
the sentinel fields with the values they already have. -/
theorem gLazyInit_id (s : GList) (h : WFG s) : gLazyInit s false = s := by
  obtain ⟨c, hc⟩ := h
  unfold gLazyInit
  by_cases hg : s.glen ≠ 0
  · rw [if_pos ⟨hg, rfl⟩]
  · push_neg at hg
    have hc0 : c = [] := by
      have hl := hc.lenEq
      rw [hg] at hl
      cases c with
      | nil => rfl
      | cons b t =>
        exfalso
        rw [List.length_cons] at hl
        omega
    subst hc0
    have hadj : s.nextF 0 = some 1 ∧ s.prevF 1 = some 0 :=
      adj_of_decomp hc.links (show fullSeq [] = [] ++ 0 :: 1 :: [] by
        simp [fullSeq])
    rw [if_neg (by simp [hg])]
    refine GList.ext ?_ ?_ ?_ rfl hg.symm rfl
    · funext x
      show Function.update (Function.update s.nextF 0 (some 1)) 1 none x
          = s.nextF x
      by_cases hx1 : x = 1
      · subst hx1
        rw [Function.update_same, hc.nextTail]
      · rw [Function.update_noteq hx1]
        by_cases hx0 : x = 0
        · subst hx0
          rw [Function.update_same, hadj.1]
        · rw [Function.update_noteq hx0]
    · funext x
      show Function.update (Function.update s.prevF 0 none) 1 (some 0) x
          = s.prevF x
      by_cases hx1 : x = 1
      · subst hx1
        rw [Function.update_same, hadj.2]
      · rw [Function.update_noteq hx1]
        by_cases hx0 : x = 0
        · subst hx0
          rw [Function.update_same, hc.prevHead]
        · rw [Function.update_noteq hx0]
    · funext x
      show Function.update (Function.update s.listOf 0 (some 0)) 1 (some 0) x
          = s.listOf x
      by_cases hx1 : x = 1
      · subst hx1
        rw [Function.update_same, hc.tailList]
      · rw [Function.update_noteq hx1]
        by_cases hx0 : x = 0
        · subst hx0
          rw [Function.update_same, hc.headList]
        · rw [Function.update_noteq hx0]

theorem gNew_wf : WFGc gNew [] := by
  refine ⟨by simp [fullSeq], ?_, rfl, rfl, by simp, rfl, rfl, ?_, rfl,
    by simp, by show 2 ≤ 2; omega⟩
  · show List.Chain' _ (fullSeq [])
    have : fullSeq ([] : List Nat) = [0, 1] := by simp [fullSeq]
    rw [this]
    rw [List.chain'_pair]
    constructor <;> rfl
  · intro x hx hx0 hx1
    constructor <;>
      simp [gNew, gLazyInit, Function.update, hx0, hx1]

theorem gW1_wf : WFGc gW1 [2] := by
  refine ⟨by decide, ?_, rfl, rfl, ?_, rfl, rfl, ?_, by decide, ?_,
    by show 2 ≤ 3; omega⟩
  · show List.Chain' (adjR gW1.nextF gW1.prevF) (fullSeq [2])
    have heq : fullSeq [2] = [0, 2, 1] := rfl
    rw [heq]
    refine List.chain'_cons.mpr ⟨⟨rfl, rfl⟩, List.chain'_pair.mpr ⟨rfl, rfl⟩⟩
  · intro x hx
    have hx2 : x = 2 := by simpa using hx
    subst hx2
    rfl
  · intro x hx hx0 hx1
    have hx2 : x ≠ 2 := by simpa using hx
    constructor <;> simp [gW1, hx0, hx1, hx2]
  · intro x hx
    have hx2 : x = 2 := by simpa using hx
    subst hx2
    exact ⟨by omega, by show (2 : Nat) < 3; omega⟩

/-- Cumulative effect of the `copyListElements` loop: starting from
allocation frontier `s.nAlloc` with `p` the node inserted last (one below
the frontier, or `none`), the loop allocates `vs.length` fresh ids, chains
them to each other, leaves every other node untouched (except `p`, which
now points at the first fresh id), and does not change `glen`. -/
theorem gCopyAux_spec (vs : List Int) : ∀ (s : GList) (p : Option Nat),
    (∀ q, p = some q → q + 1 = s.nAlloc) →
    (gCopyAux s p vs).1.nAlloc = s.nAlloc + vs.length ∧
    (gCopyAux s p vs).1.glen = s.glen ∧
    (vs ≠ [] → (gCopyAux s p vs).2 = some (s.nAlloc + vs.length - 1)) ∧
    (∀ x, (x < s.nAlloc ∨ s.nAlloc + vs.length ≤ x) →
      (gCopyAux s p vs).1.prevF x = s.prevF x) ∧
    (∀ x, (x < s.nAlloc ∨ s.nAlloc + vs.length ≤ x) →
      (gCopyAux s p vs).1.listOf x = s.listOf x) ∧
    (∀ x, (x < s.nAlloc ∨ s.nAlloc + vs.length ≤ x) →
      (∀ q, p = some q → x ≠ q) → (gCopyAux s p vs).1.nextF x = s.nextF x) ∧
    (∀ q, p = some q → vs ≠ [] →
      (gCopyAux s p vs).1.nextF q = some s.nAlloc) ∧
    (∀ x, s.nAlloc ≤ x → x + 1 < s.nAlloc + vs.length →
      (gCopyAux s p vs).1.nextF x = some (x + 1)) ∧
    (vs ≠ [] → (gCopyAux s p vs).1.nextF (s.nAlloc + vs.length - 1)
      = s.nextF (s.nAlloc + vs.length - 1)) ∧
    (∀ x, s.nAlloc < x → x < s.nAlloc + vs.length →
      (gCopyAux s p vs).1.prevF x = some (x - 1)) ∧
    (vs ≠ [] →
      (p = none → (gCopyAux s p vs).1.prevF s.nAlloc = s.prevF s.nAlloc) ∧
      (∀ q, p = some q → (gCopyAux s p vs).1.prevF s.nAlloc = some q)) := by
  induction vs with
  | nil =>
    intro s p _
    refine ⟨rfl, rfl, fun h => absurd rfl h, fun x _ => rfl, fun x _ => rfl,
      fun x _ _ => rfl, fun q _ h => absurd rfl h,
      fun x h1 h2 => absurd h2 (by simp only [List.length_nil]; omega),
      fun h => absurd rfl h,
      fun x h1 h2 => absurd h2 (by simp only [List.length_nil]; omega),
      fun h => absurd rfl h⟩
  | cons v vs ih =>
    intro s p hp
    rcases p with _ | q₀
    · -- p = none: the first copied node keeps its `prev`
      set s' : GList :=
        { s with
            nAlloc := s.nAlloc + 1
            valOf := Function.update s.valOf s.nAlloc v
            listOf := Function.update s.listOf s.nAlloc (some 1) }
      have hred : gCopyAux s none (v :: vs) = gCopyAux s' (some s.nAlloc) vs :=
        rfl
      have ha' : s'.nAlloc = s.nAlloc + 1 := rfl
      have hg' : s'.glen = s.glen := rfl
      have hn' : s'.nextF = s.nextF := rfl
      have hpf' : s'.prevF = s.prevF := rfl
      have hl' : ∀ x, x ≠ s.nAlloc → s'.listOf x = s.listOf x :=
        fun x hx => Function.update_noteq hx _ _
      obtain ⟨ih1, ih2, ih3, ih4, ih5, ih6, ih7, ih8, ih9, ih10, ih11⟩ :=
        ih s' (some s.nAlloc)
          (by intro q hq; injection hq with hh; rw [ha', hh])
      rw [hred]
      simp only [List.length_cons]
      refine ⟨?_, ?_, ?_, ?_, ?_, ?_, ?_, ?_, ?_, ?_, ?_⟩
      · rw [ih1, ha']
        omega
      · rw [ih2]
      · intro _
        by_cases hvs : vs = []
        · subst hvs
          show some s.nAlloc = _
          simp
        · rw [ih3 hvs, ha']
          congr 1
          omega
      · intro x hx
        have hx' : x < s'.nAlloc ∨ s'.nAlloc + vs.length ≤ x := by
          rw [ha']
          omega
        rw [ih4 x hx', hpf']
      · intro x hx
        have hx' : x < s'.nAlloc ∨ s'.nAlloc + vs.length ≤ x := by
          rw [ha']
          omega
        rw [ih5 x hx']
        exact hl' x (by omega)
      · intro x hx _
        have hx' : x < s'.nAlloc ∨ s'.nAlloc + vs.length ≤ x := by
          rw [ha']
          omega
        rw [ih6 x hx' (by intro q hq; injection hq with hh; omega), hn']
      · intro q hq
        exact absurd hq (by simp)
      · intro x hx1 hx2
        by_cases hxa : x = s.nAlloc
        · subst hxa
          have hvs : vs ≠ [] := by
            intro hv
            rw [hv] at hx2
            simp only [List.length_nil] at hx2
            omega
          rw [ih7 s.nAlloc rfl hvs, ha']
        · rw [ih8 x (by rw [ha']; omega) (by rw [ha']; omega)]
      · intro _
        by_cases hvs : vs = []
        · rw [hvs]
          have hidx : s.nAlloc + (List.length ([] : List Int) + 1) - 1
              = s.nAlloc := by simp
          rw [hidx]
          show s'.nextF s.nAlloc = s.nextF s.nAlloc
          rw [hn']
        · have hidx : s'.nAlloc + vs.length - 1
              = s.nAlloc + (vs.length + 1) - 1 := by rw [ha']; omega
          rw [← hidx, ih9 hvs, hn']
      · intro x hx1 hx2
        by_cases hxa : x = s.nAlloc + 1
        · subst hxa
          have hvs : vs ≠ [] := by
            intro hv
            rw [hv] at hx2
            simp only [List.length_nil] at hx2
            omega
          have hpv := (ih11 hvs).2 s.nAlloc rfl
          rw [ha'] at hpv
          rw [hpv]
          congr 1
        · exact ih10 x (by rw [ha']; omega) (by rw [ha']; omega)
      · intro _
        refine ⟨?_, ?_⟩
        · intro _
          rw [ih4 s.nAlloc (Or.inl (by rw [ha']; omega)), hpf']
        · intro q hq
          exact absurd hq (by simp)
    · -- p = some q₀: the loop first links q₀ to the new node
      have hq₀ : q₀ + 1 = s.nAlloc := hp q₀ rfl
      set s' : GList :=
        { s with
            nAlloc := s.nAlloc + 1
            valOf := Function.update s.valOf s.nAlloc v
            listOf := Function.update s.listOf s.nAlloc (some 1)
            nextF := Function.update s.nextF q₀ (some s.nAlloc)
            prevF := Function.update s.prevF s.nAlloc (some q₀) }
      have hred : gCopyAux s (some q₀) (v :: vs)
          = gCopyAux s' (some s.nAlloc) vs := rfl
      have ha' : s'.nAlloc = s.nAlloc + 1 := rfl
      have hg' : s'.glen = s.glen := rfl
      have hn' : ∀ x, x ≠ q₀ → s'.nextF x = s.nextF x :=
        fun x hx => Function.update_noteq hx _ _
      have hnq : s'.nextF q₀ = some s.nAlloc := Function.update_same _ _ _
      have hpf' : ∀ x, x ≠ s.nAlloc → s'.prevF x = s.prevF x :=
        fun x hx => Function.update_noteq hx _ _
      have hpa : s'.prevF s.nAlloc = some q₀ := Function.update_same _ _ _
      have hl' : ∀ x, x ≠ s.nAlloc → s'.listOf x = s.listOf x :=
        fun x hx => Function.update_noteq hx _ _
      obtain ⟨ih1, ih2, ih3, ih4, ih5, ih6, ih7, ih8, ih9, ih10, ih11⟩ :=
        ih s' (some s.nAlloc)
          (by intro q hq; injection hq with hh; rw [ha', hh])
      rw [hred]
      simp only [List.length_cons]
      refine ⟨?_, ?_, ?_, ?_, ?_, ?_, ?_, ?_, ?_, ?_, ?_⟩
      · rw [ih1, ha']
        omega
      · rw [ih2]
      · intro _
        by_cases hvs : vs = []
        · subst hvs
          show some s.nAlloc = _
          simp
        · rw [ih3 hvs, ha']
          congr 1
          omega
      · intro x hx
        have hx' : x < s'.nAlloc ∨ s'.nAlloc + vs.length ≤ x := by
          rw [ha']
          omega
        rw [ih4 x hx']
        exact hpf' x (by omega)
      · intro x hx
        have hx' : x < s'.nAlloc ∨ s'.nAlloc + vs.length ≤ x := by
          rw [ha']
          omega
        rw [ih5 x hx']
        exact hl' x (by omega)
      · intro x hx hxq
        have hxq₀ : x ≠ q₀ := hxq q₀ rfl
        have hx' : x < s'.nAlloc ∨ s'.nAlloc + vs.length ≤ x := by
          rw [ha']
          omega
        rw [ih6 x hx' (by intro q hq; injection hq with hh; omega)]
        exact hn' x hxq₀
      · intro q hq _
        injection hq with hh
        rw [← hh]
        rw [ih6 q₀ (Or.inl (by rw [ha']; omega))
          (by intro q' hq'; injection hq' with hh'; omega)]
        exact hnq
      · intro x hx1 hx2
        by_cases hxa : x = s.nAlloc
        · subst hxa
          have hvs : vs ≠ [] := by
            intro hv
            rw [hv] at hx2
            simp only [List.length_nil] at hx2
            omega
          rw [ih7 s.nAlloc rfl hvs, ha']
        · rw [ih8 x (by rw [ha']; omega) (by rw [ha']; omega)]
      · intro _
        by_cases hvs : vs = []
        · rw [hvs]
          have hidx : s.nAlloc + (List.length ([] : List Int) + 1) - 1
              = s.nAlloc := by simp
          rw [hidx]
          show s'.nextF s.nAlloc = s.nextF s.nAlloc
          exact hn' s.nAlloc (by omega)
        · have hidx : s'.nAlloc + vs.length - 1
              = s.nAlloc + (vs.length + 1) - 1 := by rw [ha']; omega
          rw [← hidx, ih9 hvs]
          exact hn' _ (by rw [ha']; omega)
      · intro x hx1 hx2
        by_cases hxa : x = s.nAlloc + 1
        · subst hxa
          have hvs : vs ≠ [] := by
            intro hv
            rw [hv] at hx2
            simp only [List.length_nil] at hx2
            omega
          have hpv := (ih11 hvs).2 s.nAlloc rfl
          rw [ha'] at hpv
          rw [hpv]
          congr 1
        · exact ih10 x (by rw [ha']; omega) (by rw [ha']; omega)
      · intro _
        refine ⟨?_, ?_⟩
        · intro hq
          exact absurd hq (by simp)
        · intro q hq
          injection hq with hh
          rw [← hh]
          rw [ih4 s.nAlloc (Or.inl (by rw [ha']; omega))]
          exact hpa

/-- A freshly built ascending chain is `Chain'`-linked. -/
theorem chain_range' (t : GList) (k : Nat) : ∀ (a : Nat),
    (∀ x, a ≤ x → x + 1 < a + k → t.nextF x = some (x + 1)) →
    (∀ x, a < x → x < a + k → t.prevF x = some (x - 1)) →
    List.Chain' (adjR t.nextF t.prevF) (List.range' a k) := by
  induction k with
  | zero =>
    intro a _ _
    exact List.chain'_nil
  | succ k ih =>
    intro a h1 h2
    rw [List.range'_succ]
    cases k with
    | zero => exact List.chain'_singleton a
    | succ k' =>
      rw [List.range'_succ, List.chain'_cons]
      refine ⟨⟨?_, ?_⟩, ?_⟩
      · exact h1 a (le_refl a) (by omega)
      · have := h2 (a + 1) (by omega) (by omega)
        simpa using this
      · rw [← List.range'_succ]
        refine ih (a + 1) ?_ ?_
        · intro x hx1 hx2
          exact h1 x (by omega) (by omega)
        · intro x hx1 hx2
          exact h2 x (by omega) (by omega)

/-- The marking walk over a freshly copied ascending chain terminates and
discovers exactly that chain. -/
theorem gRangeNodes_spec (t : GList) (k : Nat) : ∀ (a fuel lst : Nat),
    1 ≤ k → k ≤ fuel → lst = a + k - 1 →
    (∀ x, a ≤ x → x + 1 < a + k → t.nextF x = some (x + 1)) →
    gRangeNodes t fuel a lst = some (List.range' a k) := by
  induction k with
  | zero =>
    intro a fuel lst h _ _ _
    omega
  | succ k ih =>
    intro a fuel lst _ hfuel hlst hnext
    rcases fuel with _ | f
    · omega
    cases k with
    | zero =>
      have h1 : lst = a := by omega
      rw [h1]
      simp [gRangeNodes, List.range'_one]
    | succ k' =>
      have hne : a ≠ lst := by omega
      have hstep : t.nextF a = some (a + 1) := hnext a (le_refl a) (by omega)
      have hrec := ih (a + 1) f lst (by omega) (by omega) (by omega)
        (fun x hx1 hx2 => hnext x (by omega) (by omega))
      simp only [gRangeNodes, if_neg hne, hstep]
      rw [hrec]
      simp [List.range'_succ]

theorem nodup_insert_range {A B' ns : List Nat} {a n : Nat}
    (h : (A ++ a :: n :: B').Nodup) (hns : ns.Nodup)
    (hdisj : ∀ x ∈ ns, x ∉ A ++ a :: n :: B') :
    (A ++ a :: (ns ++ n :: B')).Nodup := by
  have hsplit : A ++ a :: n :: B' = (A ++ [a]) ++ n :: B' := by simp
  rw [hsplit] at h hdisj
  rw [List.nodup_append] at h
  have htarget : A ++ a :: (ns ++ n :: B') = (A ++ [a]) ++ (ns ++ n :: B') := by
    simp
  rw [htarget, List.nodup_append]
  refine ⟨h.1, ?_, ?_⟩
  · rw [List.nodup_append]
    refine ⟨hns, h.2.1, ?_⟩
    intro x hx hc
    exact hdisj x hx (List.mem_append_right _ hc)
  · intro x hx hc
    rcases List.mem_append.mp hc with h1 | h1
    · exact hdisj x h1 (List.mem_append_left _ hx)
    · exact h.2.2 hx h1

/-- Chain surgery for a range insertion: splicing a disjoint pre-linked
chain `ns` (running from `first` to `last`) between adjacent nodes `a` and
`n` preserves the chain property. -/
theorem chain_surgery_insert_range {nf pf : Nat → Option Nat}
    (A B' ns : List Nat) (a n first last : Nat)
    (hheadq : ns.head? = some first) (hlastq : ns.getLast? = some last)
    (hchain : List.Chain' (adjR nf pf) (A ++ a :: n :: B'))
    (hnd : (A ++ a :: n :: B').Nodup)
    (hnsnd : ns.Nodup)
    (hdisj : ∀ x ∈ ns, x ∉ A ++ a :: n :: B')
    (hinterior : List.Chain' (adjR nf pf) ns) :
    List.Chain'
      (adjR (Function.update (Function.update nf a (some first)) last (some n))
            (Function.update (Function.update pf first (some a)) n (some last)))
      (A ++ a :: (ns ++ n :: B')) := by
  have hne : ns ≠ [] := by
    intro hc
    rw [hc] at hheadq
    exact absurd hheadq (by simp)
  have hlast' : last = ns.getLast hne := by
    have hg := List.getLast?_eq_getLast ns hne
    rw [hg] at hlastq
    exact (Option.some.inj hlastq).symm
  have hlastmem : last ∈ ns := by
    rw [hlast']
    exact List.getLast_mem hne
  have hnsdecomp : ns.dropLast ++ [last] = ns := by
    rw [hlast']
    exact List.dropLast_append_getLast hne
  have hlastdrop : last ∉ ns.dropLast := by
    have hnd2 := hnsnd
    rw [← hnsdecomp, List.nodup_append] at hnd2
    intro hc
    exact hnd2.2.2 hc (List.mem_singleton_self last)
  obtain ⟨t, hns0⟩ : ∃ t, ns = first :: t := by
    rcases ns with _ | ⟨f, tt⟩
    · exact absurd hheadq (by simp)
    · refine ⟨tt, ?_⟩
      have hf : f = first := by
        simp only [List.head?_cons] at hheadq
        exact Option.some.inj hheadq
      rw [hf]
  have hfirstmem : first ∈ ns := by
    rw [hns0]
    exact List.mem_cons_self _ _
  have hfirsttail : first ∉ ns.tail := by
    have hnd2 := hnsnd
    rw [hns0, List.nodup_cons] at hnd2
    rw [hns0]
    simp only [List.tail_cons]
    exact hnd2.1
  have hamem : a ∈ A ++ a :: n :: B' :=
    List.mem_append_right _ (List.mem_cons_self _ _)
  have hnmem : n ∈ A ++ a :: n :: B' :=
    List.mem_append_right _ (List.mem_cons_of_mem _ (List.mem_cons_self _ _))
  have hans : a ∉ ns := fun hc => hdisj a hc hamem
  have hnns : n ∉ ns := fun hc => hdisj n hc hnmem
  have hfirstold : first ∉ A ++ a :: n :: B' := hdisj first hfirstmem
  have hlastold : last ∉ A ++ a :: n :: B' := hdisj last hlastmem
  have hfa : first ≠ a := fun hc => hfirstold (by rw [hc]; exact hamem)
  have hfn : first ≠ n := fun hc => hfirstold (by rw [hc]; exact hnmem)
  have hla : last ≠ a := fun hc => hlastold (by rw [hc]; exact hamem)
  have hln : last ≠ n := fun hc => hlastold (by rw [hc]; exact hnmem)
  have hndk := hnd
  rw [List.nodup_append] at hndk
  have haA : a ∉ A := fun hc => hndk.2.2 hc (by simp)
  have hnA : n ∉ A := fun hc => hndk.2.2 hc (by simp)
  have hcons := hndk.2.1
  rw [List.nodup_cons] at hcons
  have han : a ≠ n := fun hc => hcons.1 (by simp [hc])
  have haB : a ∉ B' := fun hc => hcons.1 (by simp [hc])
  have hncons := hcons.2
  rw [List.nodup_cons] at hncons
  have hnB : n ∉ B' := hncons.1
  have hlastA : last ∉ A := fun hc => hlastold (List.mem_append_left _ hc)
  have hlastB : last ∉ B' := fun hc =>
    hlastold (List.mem_append_right _ (by simp [hc]))
  have hfirstA : first ∉ A := fun hc => hfirstold (List.mem_append_left _ hc)
  have hfirstB : first ∉ B' := fun hc =>
    hfirstold (List.mem_append_right _ (by simp [hc]))
  have htarget : A ++ a :: (ns ++ n :: B') = (A ++ [a]) ++ (ns ++ n :: B') := by
    simp
  rw [htarget, List.chain'_append]
  refine ⟨?_, ?_, ?_⟩
  · have hpre := (List.chain'_append_cons_cons.mp hchain).1
    refine chain_congr _ hpre ?_ ?_
    · intro x hx
      have hdl : (A ++ [a]).dropLast = A := by simp
      rw [hdl] at hx
      have hxlast : x ≠ last := fun hc => hlastA (hc ▸ hx)
      have hxa : x ≠ a := fun hc => haA (hc ▸ hx)
      rw [Function.update_noteq hxlast, Function.update_noteq hxa]
    · intro x hx
      have hxmem : x ∈ A ++ [a] := List.mem_of_mem_tail hx
      have hxn : x ≠ n := by
        intro hc
        rw [hc] at hxmem
        rcases List.mem_append.mp hxmem with h1 | h1
        · exact hnA h1
        · exact han (List.mem_singleton.mp h1).symm
      have hxfirst : x ≠ first := by
        intro hc
        rw [hc] at hxmem
        rcases List.mem_append.mp hxmem with h1 | h1
        · exact hfirstA h1
        · exact hfa (List.mem_singleton.mp h1)
      rw [Function.update_noteq hxn, Function.update_noteq hxfirst]
  · rw [List.chain'_append]
    refine ⟨?_, ?_, ?_⟩
    · refine chain_congr _ hinterior ?_ ?_
      · intro x hx
        have hxns : x ∈ ns := List.mem_of_mem_dropLast hx
        have hxlast : x ≠ last := fun hc => hlastdrop (hc ▸ hx)
        have hxa : x ≠ a := fun hc => hans (hc ▸ hxns)
        rw [Function.update_noteq hxlast, Function.update_noteq hxa]
      · intro x hx
        have hxns : x ∈ ns := List.mem_of_mem_tail hx
        have hxfirst : x ≠ first := fun hc => hfirsttail (hc ▸ hx)
        have hxn : x ≠ n := fun hc => hnns (hc ▸ hxns)
        rw [Function.update_noteq hxn, Function.update_noteq hxfirst]
    · have hsuf := (List.chain'_append_cons_cons.mp hchain).2.2
      refine chain_congr _ hsuf ?_ ?_
      · intro x hx
        have hxmem : x ∈ n :: B' := List.mem_of_mem_dropLast hx
        have hxlast : x ≠ last := by
          intro hc
          rw [hc] at hxmem
          rcases List.mem_cons.mp hxmem with h1 | h1
          · exact hln h1
          · exact hlastB h1
        have hxa : x ≠ a := by
          intro hc
          rw [hc] at hxmem
          rcases List.mem_cons.mp hxmem with h1 | h1
          · exact han h1
          · exact haB h1
        rw [Function.update_noteq hxlast, Function.update_noteq hxa]
      · intro x hx
        simp only [List.tail_cons] at hx
        have hxn : x ≠ n := fun hc => hnB (hc ▸ hx)
        have hxfirst : x ≠ first := fun hc => hfirstB (hc ▸ hx)
        rw [Function.update_noteq hxn, Function.update_noteq hxfirst]
    · intro x hx y hy
      rw [hlastq] at hx
      have hxl : x = last := (Option.mem_some_iff.mp hx).symm
      have hyn : y = n := by
        simp only [List.head?_cons] at hy
        exact (Option.mem_some_iff.mp hy).symm
      subst hxl
      subst hyn
      exact ⟨Function.update_same _ _ _, Function.update_same _ _ _⟩
  · intro x hx y hy
    have hxa : x = a := by
      rw [List.getLast?_concat] at hx
      exact (Option.mem_some_iff.mp hx).symm
    have hyf : y = first := by
      rw [hns0] at hy
      simp only [List.cons_append, List.head?_cons] at hy
      exact (Option.mem_some_iff.mp hy).symm
    subst hxa
    subst hyf
    refine ⟨?_, ?_⟩
    · rw [Function.update_noteq (Ne.symm hla), Function.update_same]
    · rw [Function.update_noteq hfn, Function.update_same]

theorem range'_getLast : ∀ (k a : Nat),
    (List.range' a (k + 1)).getLast? = some (a + k) := by
  intro k
  induction k with
  | zero => intro a; rfl
  | succ k ih =>
    intro a
    rw [List.range'_succ, List.range'_succ, List.getLast?_cons_cons,
      ← List.range'_succ, ih (a + 1)]
    congr 1
    omega

theorem gPred_eq_some {s : GList} {x p : Nat} (hl : s.listOf x = some 0)
    (hp : s.prevF x = some p) (hn : s.nextF p = some x) :
    gPred s x = some p := by
  unfold gPred
  rw [if_pos hl, hp]
  show (if s.nextF p = some x then some p else none) = some p
  rw [if_pos hn]

/-- The copy of a nonempty value list: the returned first/last ids, and the
copied state — untouched outside the fresh range, chained inside it, with
the marking walk recovering exactly the fresh range. -/
theorem gCopy_spec (s : GList) (vs : List Int) (hvs : vs ≠ []) :
    ∃ t : GList,
      gCopyListElements s vs
        = (t, some s.nAlloc, some (s.nAlloc + vs.length - 1)) ∧
      t.nAlloc = s.nAlloc + vs.length ∧
      t.glen = s.glen ∧
      (∀ x, (x < s.nAlloc ∨ s.nAlloc + vs.length ≤ x) →
        t.prevF x = s.prevF x ∧ t.listOf x = s.listOf x ∧
        t.nextF x = s.nextF x) ∧
      gRangeNodes t t.nAlloc s.nAlloc (s.nAlloc + vs.length - 1)
        = some (List.range' s.nAlloc vs.length) ∧
      List.Chain' (adjR t.nextF t.prevF)
        (List.range' s.nAlloc vs.length) := by
  obtain ⟨h1, h2, h3, h4, h5, h6, _h7, h8, _h9, h10, _h11⟩ :=
    gCopyAux_spec vs s none (fun q hq => Option.noConfusion hq)
  refine ⟨(gCopyAux s none vs).1, ?_, h1, h2, ?_, ?_, ?_⟩
  · show ((gCopyAux s none vs).1,
      (match (gCopyAux s none vs).2 with
        | none => none
        | some _ => some s.nAlloc),
      (gCopyAux s none vs).2) = _
    rw [h3 hvs]
  · intro x hx
    exact ⟨h4 x hx, h5 x hx, h6 x hx (fun q hq => Option.noConfusion hq)⟩
  · refine gRangeNodes_spec _ vs.length s.nAlloc _ _ ?_ ?_ rfl h8
    · exact List.length_pos.mpr hvs
    · rw [h1]
      omega
  · exact chain_range' _ vs.length s.nAlloc h8 h10

/-- Reduction of the range `insertAfter` on a mark that is in the list and
has a successor. -/
theorem gInsertAfterR_red (s : GList) (first last at_ n : Nat) (ns : List Nat)
    (hrg : gRangeNodes s s.nAlloc first last = some ns)
    (hnext : s.nextF at_ = some n)
    (hmem : at_ ∉ ns) (hat : s.listOf at_ = some 0) :
    gInsertAfterR s first last at_
      = some ({ s with
          listOf := fun x => if x ∈ ns then some 0 else s.listOf x
          nextF := Function.update (Function.update s.nextF at_ (some first))
            last (some n)
          prevF := Function.update (Function.update s.prevF first (some at_))
            n (some last)
          glen := s.glen + ns.length }, true) := by
  have hl : (if at_ ∈ ns then (some 0 : Option Nat) else s.listOf at_)
      = some 0 := by
    rw [if_neg hmem]
    exact hat
  simp [gInsertAfterR, hrg, hnext, hl]

/-- Reduction of the range `insertBefore` on a mark whose predecessor is
found. -/
theorem gInsertBeforeR_red (s : GList) (first last at_ p : Nat)
    (ns : List Nat)
    (hrg : gRangeNodes s s.nAlloc first last = some ns)
    (hpred : gPred
      { s with
          listOf := fun x => if x ∈ ns then some 0 else s.listOf x }
      at_ = some p) :
    gInsertBeforeR s first last at_
      = some ({ s with
          listOf := fun x => if x ∈ ns then some 0 else s.listOf x
          nextF := Function.update (Function.update s.nextF p (some first))
            last (some at_)
          prevF := Function.update (Function.update s.prevF first (some p))
            at_ (some last)
          glen := s.glen + ns.length }, true) := by
  simp [gInsertBeforeR, hrg, hpred]

/-- Coherence: the single-node `insertAfter(e, e, at)` embedding is the
one-element instance of the range form. -/
theorem gInsertAfterR_one (s : GList) (e at_ : Nat) (h1 : 1 ≤ s.nAlloc) :
    gInsertAfterR s e e at_ = some (gInsertAfter s e at_) := by
  have hrg : gRangeNodes s s.nAlloc e e = some [e] := by
    rcases hn : s.nAlloc with _ | f
    · omega
    · simp [gRangeNodes]
  have hfun : (fun x => if x = e then (some 0 : Option Nat)
      else s.listOf x) = Function.update s.listOf e (some 0) := by
    funext x
    by_cases hx : x = e
    · subst hx
      simp
    · simp [hx, Function.update_noteq hx]
  rcases hnext : s.nextF at_ with _ | n
  · simp [gInsertAfterR, gInsertAfter, hrg, hfun, hnext]
  · by_cases hae : at_ = e
    · subst hae
      simp [gInsertAfterR, gInsertAfter, hrg, hfun, hnext]
    · by_cases hat : s.listOf at_ = some 0
      · simp [gInsertAfterR, gInsertAfter, hrg, hfun, hnext, hae, hat]
      · simp [gInsertAfterR, gInsertAfter, hrg, hfun, hnext, hae, hat]

/-- Coherence: the single-node `insertBefore(e, e, at)` embedding is the
one-element instance of the range form whenever the mark is not the inserted
node itself (always the case in the source, where the node is freshly
allocated: the two embeddings order the `first.prev`/`at.prev` stores
differently, which is observable only under that aliasing). -/
theorem gInsertBeforeR_one (s : GList) (e at_ : Nat) (h1 : 1 ≤ s.nAlloc)
    (hne : at_ ≠ e) :
    gInsertBeforeR s e e at_ = some (gInsertBefore s e at_) := by
  have hrg : gRangeNodes s s.nAlloc e e = some [e] := by
    rcases hn : s.nAlloc with _ | f
    · omega
    · simp [gRangeNodes]
  have hfun : (fun x => if x = e then (some 0 : Option Nat)
      else s.listOf x) = Function.update s.listOf e (some 0) := by
    funext x
    by_cases hx : x = e
    · subst hx
      simp
    · simp [hx, Function.update_noteq hx]
  rcases hpred : gPred
      { s with listOf := Function.update s.listOf e (some 0) } at_
    with _ | p
  · simp [gInsertBeforeR, gInsertBefore, hrg, hfun, hpred]
  · simp [gInsertBeforeR, gInsertBefore, hrg, hfun, hpred]
    exact Function.update_comm (Ne.symm hne) _ _ _

/-- `PushFrontList` preserves well-formedness for every source list
(including the list itself): the copied chain is spliced right after the
head sentinel. -/
theorem gPushFrontList_wf (s : GList) (c : List Nat) (h : WFGc s c)
    (other : GList) : ∃ c2, WFGc (gPushFrontList s other) c2 := by
  have hinit : gLazyInit s false = s := gLazyInit_id s ⟨c, h⟩
  have hpf : gPushFrontList s other
      = gSpliceFront (gCopyListElements s ((fwdWalk other).map other.valOf)) := by
    unfold gPushFrontList
    rw [hinit]
  rcases hvs : (fwdWalk other).map other.valOf with _ | ⟨v0, vt⟩
  · rw [hpf, hvs]
    exact ⟨c, h⟩
  · obtain ⟨t, hceq, hta, htg, hold, hrange, hchainns⟩ :=
      gCopy_spec s (v0 :: vt) (by simp)
    rw [hpf, hvs, hceq]
    simp only [gSpliceFront]
    have halloc2 := h.alloc2
    have hk : (v0 :: vt : List Int).length = vt.length + 1 := rfl
    have hk1 : 1 ≤ (v0 :: vt : List Int).length := by simp
    obtain ⟨n0, B', hcB⟩ : ∃ n0 B', c ++ [1] = n0 :: B' := by
      cases c with
      | nil => exact ⟨1, [], rfl⟩
      | cons hd tl => exact ⟨hd, tl ++ [1], by simp⟩
    have hfull : fullSeq c = [] ++ 0 :: n0 :: B' := by
      have h0 : fullSeq c = 0 :: (c ++ [1]) := by simp [fullSeq]
      rw [h0, hcB]
      rfl
    have hadj0 := adj_of_decomp h.links hfull
    have hn0mem : n0 ∈ c ∨ n0 = 1 := by
      have hm : n0 ∈ c ++ [1] := by
        rw [hcB]
        exact List.mem_cons_self _ _
      rcases List.mem_append.mp hm with h1 | h1
      · exact Or.inl h1
      · exact Or.inr (List.mem_singleton.mp h1)
    have hn0lt : n0 < s.nAlloc := by
      rcases hn0mem with h1 | h1
      · exact (h.bounded n0 h1).2
      · omega
    have hn02 : 2 ≤ n0 ∨ n0 = 1 := by
      rcases hn0mem with h1 | h1
      · exact Or.inl (h.bounded n0 h1).1
      · exact Or.inr h1
    have hn0ne0 : n0 ≠ 0 := by omega
    have hmemlt : ∀ x, x ∈ fullSeq c → x < s.nAlloc := by
      intro x hx
      rcases mem_fullSeq.mp hx with h1 | h1 | h1
      · omega
      · exact (h.bounded x h1).2
      · omega
    have h0ns : (0 : Nat) ∉ List.range' s.nAlloc (v0 :: vt).length := by
      rw [List.mem_range'_1]
      omega
    have h1ns : (1 : Nat) ∉ List.range' s.nAlloc (v0 :: vt).length := by
      rw [List.mem_range'_1]
      omega
    have hchain_t : List.Chain' (adjR t.nextF t.prevF) (fullSeq c) := by
      refine chain_congr _ h.links ?_ ?_
      · intro x hx
        exact (hold x (Or.inl (hmemlt x (List.mem_of_mem_dropLast hx)))).2.2
      · intro x hx
        exact (hold x (Or.inl (hmemlt x (List.mem_of_mem_tail hx)))).1
    have hn0t : t.nextF 0 = some n0 := by
      rw [(hold 0 (Or.inl (by omega))).2.2]
      exact hadj0.1
    have hat0 : t.listOf 0 = some 0 := by
      rw [(hold 0 (Or.inl (by omega))).2.1]
      exact h.headList
    have hred := gInsertAfterR_red t s.nAlloc
      (s.nAlloc + (v0 :: vt).length - 1) 0 n0
      (List.range' s.nAlloc (v0 :: vt).length) hrange hn0t h0ns hat0
    rw [hred]
    simp only [Option.getD_some]
    refine ⟨List.range' s.nAlloc (v0 :: vt).length ++ c, ?_⟩
    have hheadns : (List.range' s.nAlloc (v0 :: vt).length).head?
        = some s.nAlloc := by
      rw [hk, List.range'_succ]
      rfl
    have hlastns : (List.range' s.nAlloc (v0 :: vt).length).getLast?
        = some (s.nAlloc + (v0 :: vt).length - 1) := by
      rw [hk, range'_getLast]
      congr 1
    have hnsnd : (List.range' s.nAlloc (v0 :: vt).length).Nodup := by
      apply List.nodup_range'
      omega
    have hchain_old : List.Chain' (adjR t.nextF t.prevF)
        ([] ++ 0 :: n0 :: B') := hfull ▸ hchain_t
    have hnd_old : ([] ++ 0 :: n0 :: B' : List Nat).Nodup := hfull ▸ h.nodup
    have hdisj : ∀ x ∈ List.range' s.nAlloc (v0 :: vt).length,
        x ∉ ([] ++ 0 :: n0 :: B' : List Nat) := by
      intro x hx hmem
      have hx2 : x ∈ fullSeq c := by
        rw [hfull]
        exact hmem
      have hlt := hmemlt x hx2
      rw [List.mem_range'_1] at hx
      omega
    have hfull2 : fullSeq (List.range' s.nAlloc (v0 :: vt).length ++ c)
        = [] ++ 0 :: (List.range' s.nAlloc (v0 :: vt).length ++ n0 :: B') := by
      have h0 : fullSeq (List.range' s.nAlloc (v0 :: vt).length ++ c)
          = 0 :: (List.range' s.nAlloc (v0 :: vt).length ++ (c ++ [1])) := by
        simp [fullSeq]
      rw [h0, hcB]
      rfl
    refine ⟨?_, ?_, ?_, ?_, ?_, ?_, ?_, ?_, ?_, ?_, ?_⟩
    · show (fullSeq (List.range' s.nAlloc (v0 :: vt).length ++ c)).Nodup
      rw [hfull2]
      exact nodup_insert_range hnd_old hnsnd hdisj
    · show List.Chain' _ (fullSeq (List.range' s.nAlloc (v0 :: vt).length ++ c))
      rw [hfull2]
      exact chain_surgery_insert_range [] B'
        (List.range' s.nAlloc (v0 :: vt).length) 0 n0 s.nAlloc
        (s.nAlloc + (v0 :: vt).length - 1) hheadns hlastns hchain_old hnd_old
        hnsnd hdisj hchainns
    · show Function.update (Function.update t.prevF s.nAlloc (some 0)) n0
          (some (s.nAlloc + (v0 :: vt).length - 1)) 0 = none
      rw [Function.update_noteq (Ne.symm hn0ne0),
        Function.update_noteq (by omega : (0 : Nat) ≠ s.nAlloc),
        (hold 0 (Or.inl (by omega))).1]
      exact h.prevHead
    · show Function.update (Function.update t.nextF 0 (some s.nAlloc))
          (s.nAlloc + (v0 :: vt).length - 1) (some n0) 1 = none
      rw [Function.update_noteq (by omega :
          (1 : Nat) ≠ s.nAlloc + (v0 :: vt).length - 1),
        Function.update_noteq (by omega : (1 : Nat) ≠ 0),
        (hold 1 (Or.inl (by omega))).2.2]
      exact h.nextTail
    · intro x hx
      show (if x ∈ List.range' s.nAlloc (v0 :: vt).length then some 0
        else t.listOf x) = some 0
      rcases List.mem_append.mp hx with h1 | h1
      · rw [if_pos h1]
      · have hxlt : x < s.nAlloc := (h.bounded x h1).2
        rw [if_neg (by rw [List.mem_range'_1]; omega),
          (hold x (Or.inl hxlt)).2.1]
        exact h.memList x h1
    · show (if (0 : Nat) ∈ List.range' s.nAlloc (v0 :: vt).length then some 0
        else t.listOf 0) = some 0
      rw [if_neg h0ns]
      exact hat0
    · show (if (1 : Nat) ∈ List.range' s.nAlloc (v0 :: vt).length then some 0
        else t.listOf 1) = some 0
      rw [if_neg h1ns, (hold 1 (Or.inl (by omega))).2.1]
      exact h.tailList
    · intro x hx hx0 hx1
      have hxns : x ∉ List.range' s.nAlloc (v0 :: vt).length :=
        fun hc => hx (List.mem_append_left _ hc)
      have hxc : x ∉ c := fun hc => hx (List.mem_append_right _ hc)
      have hxrange : x < s.nAlloc ∨ s.nAlloc + (v0 :: vt).length ≤ x := by
        rw [List.mem_range'_1] at hxns
        omega
      have hdet := h.detached x hxc hx0 hx1
      constructor
      · show Function.update (Function.update t.nextF 0 (some s.nAlloc))
            (s.nAlloc + (v0 :: vt).length - 1) (some n0) x = none
        have hxL : x ≠ s.nAlloc + (v0 :: vt).length - 1 := by
          intro hc
          apply hxns
          rw [List.mem_range'_1]
          omega
        rw [Function.update_noteq hxL, Function.update_noteq hx0,
          (hold x hxrange).2.2]
        exact hdet.1
      · show Function.update (Function.update t.prevF s.nAlloc (some 0)) n0
            (some (s.nAlloc + (v0 :: vt).length - 1)) x = none
        have hxn0 : x ≠ n0 := by
          intro hc
          rcases hn0mem with h1 | h1
          · exact hxc (hc ▸ h1)
          · exact hx1 (hc.trans h1)
        have hxa : x ≠ s.nAlloc := by
          intro hc
          apply hxns
          rw [List.mem_range'_1]
          omega
        rw [Function.update_noteq hxn0, Function.update_noteq hxa,
          (hold x hxrange).1]
        exact hdet.2
    · show t.glen + ((List.range' s.nAlloc (v0 :: vt).length).length : Int)
        = ((List.range' s.nAlloc (v0 :: vt).length ++ c).length : Int)
      rw [htg, h.lenEq, List.length_append, List.length_range']
      push_cast
      ring
    · intro x hx
      show 2 ≤ x ∧ x < t.nAlloc
      rw [hta]
      rcases List.mem_append.mp hx with h1 | h1
      · rw [List.mem_range'_1] at h1
        omega
      · have hb := h.bounded x h1
        omega
    · show 2 ≤ t.nAlloc
      rw [hta]
      omega

/-- `PushBackList` preserves well-formedness for every source list: the
copied chain is spliced right before the tail sentinel. -/
theorem gPushBackList_wf (s : GList) (c : List Nat) (h : WFGc s c)
    (other : GList) : ∃ c2, WFGc (gPushBackList s other) c2 := by
  have hinit : gLazyInit s false = s := gLazyInit_id s ⟨c, h⟩
  have hpb : gPushBackList s other
      = gSpliceBack (gCopyListElements s ((fwdWalk other).map other.valOf)) := by
    unfold gPushBackList
    rw [hinit]
  rcases hvs : (fwdWalk other).map other.valOf with _ | ⟨v0, vt⟩
  · rw [hpb, hvs]
    exact ⟨c, h⟩
  · obtain ⟨t, hceq, hta, htg, hold, hrange, hchainns⟩ :=
      gCopy_spec s (v0 :: vt) (by simp)
    rw [hpb, hvs, hceq]
    simp only [gSpliceBack]
    have halloc2 := h.alloc2
    have hk : (v0 :: vt : List Int).length = vt.length + 1 := rfl
    have hk1 : 1 ≤ (v0 :: vt : List Int).length := by simp
    obtain ⟨A', p0, hfull, hfull2, hp0mem, _hAmem⟩ :
        ∃ A' p0, fullSeq c = A' ++ p0 :: 1 :: [] ∧
          fullSeq (c ++ List.range' s.nAlloc (v0 :: vt).length)
            = A' ++ p0 :: (List.range' s.nAlloc (v0 :: vt).length
                ++ 1 :: []) ∧
          (p0 = 0 ∨ p0 ∈ c) ∧ (∀ x ∈ A', x = 0 ∨ x ∈ c) := by
      rcases List.eq_nil_or_concat c with rfl | ⟨c1, p0, rfl⟩
      · exact ⟨[], 0, by simp [fullSeq], by simp [fullSeq], Or.inl rfl,
          by simp⟩
      · refine ⟨0 :: c1, p0, by simp [fullSeq], by simp [fullSeq],
          Or.inr (by simp), ?_⟩
        intro x hx
        rcases List.mem_cons.mp hx with h1 | h1
        · exact Or.inl h1
        · refine Or.inr ?_
          rw [List.concat_eq_append]
          exact List.mem_append_left _ h1
    have hadjp := adj_of_decomp h.links hfull
    have hp0lt : p0 < s.nAlloc := by
      rcases hp0mem with h1 | h1
      · omega
      · exact (h.bounded p0 h1).2
    have hp02 : p0 = 0 ∨ 2 ≤ p0 := by
      rcases hp0mem with h1 | h1
      · exact Or.inl h1
      · exact Or.inr (h.bounded p0 h1).1
    have hmemlt : ∀ x, x ∈ fullSeq c → x < s.nAlloc := by
      intro x hx
      rcases mem_fullSeq.mp hx with h1 | h1 | h1
      · omega
      · exact (h.bounded x h1).2
      · omega
    have h0ns : (0 : Nat) ∉ List.range' s.nAlloc (v0 :: vt).length := by
      rw [List.mem_range'_1]
      omega
    have h1ns : (1 : Nat) ∉ List.range' s.nAlloc (v0 :: vt).length := by
      rw [List.mem_range'_1]
      omega
    have hchain_t : List.Chain' (adjR t.nextF t.prevF) (fullSeq c) := by
      refine chain_congr _ h.links ?_ ?_
      · intro x hx
        exact (hold x (Or.inl (hmemlt x (List.mem_of_mem_dropLast hx)))).2.2
      · intro x hx
        exact (hold x (Or.inl (hmemlt x (List.mem_of_mem_tail hx)))).1
    have hred := gInsertBeforeR_red t s.nAlloc
      (s.nAlloc + (v0 :: vt).length - 1) 1 p0
      (List.range' s.nAlloc (v0 :: vt).length) hrange
      (gPred_eq_some
        (by
          show (if (1 : Nat) ∈ List.range' s.nAlloc (v0 :: vt).length
            then some 0 else t.listOf 1) = some 0
          rw [if_neg h1ns, (hold 1 (Or.inl (by omega))).2.1]
          exact h.tailList)
        (by
          show t.prevF 1 = some p0
          rw [(hold 1 (Or.inl (by omega))).1]
          exact hadjp.2)
        (by
          show t.nextF p0 = some 1
          rw [(hold p0 (Or.inl hp0lt)).2.2]
          exact hadjp.1))
    rw [hred]
    simp only [Option.getD_some]
    refine ⟨c ++ List.range' s.nAlloc (v0 :: vt).length, ?_⟩
    have hheadns : (List.range' s.nAlloc (v0 :: vt).length).head?
        = some s.nAlloc := by
      rw [hk, List.range'_succ]
      rfl
    have hlastns : (List.range' s.nAlloc (v0 :: vt).length).getLast?
        = some (s.nAlloc + (v0 :: vt).length - 1) := by
      rw [hk, range'_getLast]
      congr 1
    have hnsnd : (List.range' s.nAlloc (v0 :: vt).length).Nodup := by
      apply List.nodup_range'
      omega
    have hchain_old : List.Chain' (adjR t.nextF t.prevF)
        (A' ++ p0 :: 1 :: []) := hfull ▸ hchain_t
    have hnd_old : (A' ++ p0 :: 1 :: [] : List Nat).Nodup := hfull ▸ h.nodup
    have hdisj : ∀ x ∈ List.range' s.nAlloc (v0 :: vt).length,
        x ∉ (A' ++ p0 :: 1 :: [] : List Nat) := by
      intro x hx hmem
      have hx2 : x ∈ fullSeq c := by
        rw [hfull]
        exact hmem
      have hlt := hmemlt x hx2
      rw [List.mem_range'_1] at hx
      omega
    refine ⟨?_, ?_, ?_, ?_, ?_, ?_, ?_, ?_, ?_, ?_, ?_⟩
    · show (fullSeq (c ++ List.range' s.nAlloc (v0 :: vt).length)).Nodup
      rw [hfull2]
      exact nodup_insert_range hnd_old hnsnd hdisj
    · show List.Chain' _
        (fullSeq (c ++ List.range' s.nAlloc (v0 :: vt).length))
      rw [hfull2]
      exact chain_surgery_insert_range A' []
        (List.range' s.nAlloc (v0 :: vt).length) p0 1 s.nAlloc
        (s.nAlloc + (v0 :: vt).length - 1) hheadns hlastns hchain_old hnd_old
        hnsnd hdisj hchainns
    · show Function.update (Function.update t.prevF s.nAlloc (some p0)) 1
          (some (s.nAlloc + (v0 :: vt).length - 1)) 0 = none
      rw [Function.update_noteq (by omega : (0 : Nat) ≠ 1),
        Function.update_noteq (by omega : (0 : Nat) ≠ s.nAlloc),
        (hold 0 (Or.inl (by omega))).1]
      exact h.prevHead
    · show Function.update (Function.update t.nextF p0 (some s.nAlloc))
          (s.nAlloc + (v0 :: vt).length - 1) (some 1) 1 = none
      rw [Function.update_noteq (by omega :
          (1 : Nat) ≠ s.nAlloc + (v0 :: vt).length - 1),
        Function.update_noteq (by omega : (1 : Nat) ≠ p0),
        (hold 1 (Or.inl (by omega))).2.2]
      exact h.nextTail
    · intro x hx
      show (if x ∈ List.range' s.nAlloc (v0 :: vt).length then some 0
        else t.listOf x) = some 0
      rcases List.mem_append.mp hx with h1 | h1
      · have hxlt : x < s.nAlloc := (h.bounded x h1).2
        rw [if_neg (by rw [List.mem_range'_1]; omega),
          (hold x (Or.inl hxlt)).2.1]
        exact h.memList x h1
      · rw [if_pos h1]
    · show (if (0 : Nat) ∈ List.range' s.nAlloc (v0 :: vt).length then some 0
        else t.listOf 0) = some 0
      rw [if_neg h0ns, (hold 0 (Or.inl (by omega))).2.1]
      exact h.headList
    · show (if (1 : Nat) ∈ List.range' s.nAlloc (v0 :: vt).length then some 0
        else t.listOf 1) = some 0
      rw [if_neg h1ns, (hold 1 (Or.inl (by omega))).2.1]
      exact h.tailList
    · intro x hx hx0 hx1
      have hxns : x ∉ List.range' s.nAlloc (v0 :: vt).length :=
        fun hc => hx (List.mem_append_right _ hc)
      have hxc : x ∉ c := fun hc => hx (List.mem_append_left _ hc)
      have hxrange : x < s.nAlloc ∨ s.nAlloc + (v0 :: vt).length ≤ x := by
        rw [List.mem_range'_1] at hxns
        omega
      have hdet := h.detached x hxc hx0 hx1
      constructor
      · show Function.update (Function.update t.nextF p0 (some s.nAlloc))
            (s.nAlloc + (v0 :: vt).length - 1) (some 1) x = none
        have hxL : x ≠ s.nAlloc + (v0 :: vt).length - 1 := by
          intro hc
          apply hxns
          rw [List.mem_range'_1]
          omega
        have hxp0 : x ≠ p0 := by
          intro hc
          rcases hp0mem with h1 | h1
          · exact hx0 (hc.trans h1)
          · exact hxc (hc ▸ h1)
        rw [Function.update_noteq hxL, Function.update_noteq hxp0,
          (hold x hxrange).2.2]
        exact hdet.1
      · show Function.update (Function.update t.prevF s.nAlloc (some p0)) 1
            (some (s.nAlloc + (v0 :: vt).length - 1)) x = none
        have hxa : x ≠ s.nAlloc := by
          intro hc
          apply hxns
          rw [List.mem_range'_1]
          omega
        rw [Function.update_noteq hx1, Function.update_noteq hxa,
          (hold x hxrange).1]
        exact hdet.2
    · show t.glen + ((List.range' s.nAlloc (v0 :: vt).length).length : Int)
        = ((c ++ List.range' s.nAlloc (v0 :: vt).length).length : Int)
      rw [htg, h.lenEq, List.length_append, List.length_range']
      push_cast
      ring
    · intro x hx
      show 2 ≤ x ∧ x < t.nAlloc
      rw [hta]
      rcases List.mem_append.mp hx with h1 | h1
      · have hb := h.bounded x h1
        omega
      · rw [List.mem_range'_1] at h1
        omega
    · show 2 ≤ t.nAlloc
      rw [hta]
      omega

/-- C6: `Remove(e)` returns the former value of `e` when `e` is an element of
this list at call time (reachable in the traversal), and otherwise returns
nil and leaves the list unmodified.  (`e` ranges over data nodes; clients
cannot obtain the sentinels.) -/
theorem remove_returns_value_iff (s : GList) (h : WFG s) (e : Nat)
    (_he2 : 2 ≤ e) :
    (e ∈ fwdWalk s → (gRemovePub s e).2 = some (s.valOf e)) ∧
    (e ∉ fwdWalk s → gRemovePub s e = (s, none)) := by
  obtain ⟨c, hc⟩ := h
  have hwalk : fwdWalk s = c := fwdWalk_eq hc
  have hinit : gLazyInit s false = s := gLazyInit_id s ⟨c, hc⟩
  constructor
  · intro hmem
    rw [hwalk] at hmem
    obtain ⟨hsucc, hval, _, _, _⟩ := gRemove_mem_spec s c hc e hmem
    show (let s0 := gLazyInit s false
          let r := gRemove s0 e
          (r.1, if r.2 then some (r.1.valOf e) else none)).2
        = some (s.valOf e)
    rw [hinit]
    show (if (gRemove s e).2 = true then some ((gRemove s e).1.valOf e)
          else none) = some (s.valOf e)
    rw [hsucc, if_pos rfl, hval]
  · intro hmem
    rw [hwalk] at hmem
    have hrem := gRemove_not_mem s c hc e hmem
    show (let s0 := gLazyInit s false
          let r := gRemove s0 e
          (r.1, if r.2 then some (r.1.valOf e) else none)) = (s, none)
    rw [hinit]
    show ((gRemove s e).1,
        if (gRemove s e).2 = true then some ((gRemove s e).1.valOf e)
        else none) = (s, none)
    rw [hrem]
    rfl

theorem remove_returns_value_iff_witness :
    ((2 : Nat) ∈ fwdWalk gW1 ∧ (gRemovePub gW1 2).2 = some (gW1.valOf 2)) ∧
    ((3 : Nat) ∉ fwdWalk gW1 ∧ gRemovePub gW1 3 = (gW1, none)) :=
  ⟨⟨by decide,
    (remove_returns_value_iff gW1 ⟨[2], gW1_wf⟩ 2 (by decide)).1 (by decide)⟩,
   ⟨by decide,
    (remove_returns_value_iff gW1 ⟨[2], gW1_wf⟩ 3 (by decide)).2 (by decide)⟩⟩

/-- C5 (amended): in a quiescent well-formed list, every node reachable in
the forward traversal is a non-sentinel member of this list satisfying
`n.prev.next == n` and `n.next.prev == n`; the traversal visits exactly `Len`
nodes and the backward traversal yields the same sequence reversed; and every
list operation — `InsertAfter`, `InsertBefore`, `PushFront`, `PushBack`,
`Remove`, `MoveAfter`, `MoveBefore`, `MoveToFront`, `MoveToBack`,
`PushFrontList`, `PushBackList` — preserves well-formedness, for every
argument.  The original claim's quantification over every node with
`n.list == L` fails: a failed insert leaves a detached node whose `list`
pointer was already set (see the counterexample theorem). -/
theorem general_list_invariant (s : GList) (h : WFG s) :
    (∀ x ∈ fwdWalk s, s.listOf x = some 0 ∧ x ≠ 0 ∧ x ≠ 1 ∧
      (∃ p, s.prevF x = some p ∧ s.nextF p = some x) ∧
      (∃ m, s.nextF x = some m ∧ s.prevF m = some x)) ∧
    ((fwdWalk s).length : Int) = s.glen ∧
    bwdWalk s = (fwdWalk s).reverse ∧
    (∀ v mark, WFG (gInsertAfterPub s v mark).1) ∧
    (∀ v mark, WFG (gInsertBeforePub s v mark).1) ∧
    (∀ v, WFG (gPushFront s v).1) ∧
    (∀ v, WFG (gPushBack s v).1) ∧
    (∀ e, WFG (gRemovePub s e).1) ∧
    (∀ e mark, WFG (gMoveAfter s e mark).1) ∧
    (∀ e mark, WFG (gMoveBefore s e mark).1) ∧
    (∀ e, WFG (gMoveToFront s e)) ∧
    (∀ e, WFG (gMoveToBack s e)) ∧
    (∀ other, WFG (gPushFrontList s other)) ∧
    (∀ other, WFG (gPushBackList s other)) := by
  obtain ⟨c, hc⟩ := h
  have hwalk : fwdWalk s = c := fwdWalk_eq hc
  have hinit : gLazyInit s false = s := gLazyInit_id s ⟨c, hc⟩
  have hafter : ∀ v mark, WFG (gInsertAfterPub s v mark).1 := by
    intro v mark
    unfold gInsertAfterPub
    rw [hinit]
    exact gInsertValueAfter_wf s c hc v mark
  have hbefore : ∀ v mark, WFG (gInsertBeforePub s v mark).1 := by
    intro v mark
    unfold gInsertBeforePub
    rw [hinit]
    exact gInsertValueBefore_wf s c hc v mark
  have hremove : ∀ e, WFG (gRemovePub s e).1 := by
    intro e
    show WFG (let s0 := gLazyInit s false
              let r := gRemove s0 e
              (r.1, if r.2 then some (r.1.valOf e) else none)).1
    rw [hinit]
    show WFG (gRemove s e).1
    by_cases hmem : e ∈ c
    · obtain ⟨_, _, _, _, c2, hwf2, _, _⟩ := gRemove_mem_spec s c hc e hmem
      exact ⟨c2, hwf2⟩
    · rw [gRemove_not_mem s c hc e hmem]
      exact ⟨c, hc⟩
  refine ⟨?_, ?_, ?_, hafter, hbefore, fun v => hafter v 0, fun v => hbefore v 1,
    hremove, fun e mark => gMoveAfter_wf s c hc e mark,
    fun e mark => gMoveBefore_wf s c hc e mark, ?_, ?_,
    fun other => gPushFrontList_wf s c hc other,
    fun other => gPushBackList_wf s c hc other⟩
  · intro x hx
    rw [hwalk] at hx
    have hx0 : x ≠ 0 := fun hcon => zero_not_mem_of_nodup hc.nodup (hcon ▸ hx)
    have hx1 : x ≠ 1 := fun hcon => one_not_mem_of_nodup hc.nodup (hcon ▸ hx)
    obtain ⟨A, p, n, B', c2, hF, _, _, _, _, _⟩ := decomp_mid c x hx
    have hadj_pe := adj_of_decomp hc.links hF
    have hFsplit : A ++ p :: x :: n :: B' = (A ++ [p]) ++ x :: n :: B' := by
      simp
    have hadj_en := adj_of_decomp hc.links (hF.trans hFsplit)
    exact ⟨hc.memList x hx, hx0, hx1, ⟨p, hadj_pe.2, hadj_pe.1⟩,
      ⟨n, hadj_en.1, hadj_en.2⟩⟩
  · rw [hwalk, hc.lenEq]
  · rw [hwalk, bwdWalk_eq hc]
  · intro e
    unfold gMoveToFront
    by_cases hl : s.listOf e ≠ some 0
    · rw [if_pos hl]
      exact ⟨c, hc⟩
    · rw [if_neg hl]
      exact gMoveAfter_wf s c hc e 0
  · intro e
    unfold gMoveToBack
    by_cases hl : s.listOf e ≠ some 0
    · rw [if_pos hl]
      exact ⟨c, hc⟩
    · rw [if_neg hl]
      exact gMoveBefore_wf s c hc e 1

theorem general_list_invariant_witness :
    (∀ x ∈ fwdWalk gNew, gNew.listOf x = some 0 ∧ x ≠ 0 ∧ x ≠ 1 ∧
      (∃ p, gNew.prevF x = some p ∧ gNew.nextF p = some x) ∧
      (∃ m, gNew.nextF x = some m ∧ gNew.prevF m = some x)) ∧
    ((fwdWalk gNew).length : Int) = gNew.glen ∧
    bwdWalk gNew = (fwdWalk gNew).reverse ∧
    (∀ v mark, WFG (gInsertAfterPub gNew v mark).1) ∧
    (∀ v mark, WFG (gInsertBeforePub gNew v mark).1) ∧
    (∀ v, WFG (gPushFront gNew v).1) ∧
    (∀ v, WFG (gPushBack gNew v).1) ∧
    (∀ e, WFG (gRemovePub gNew e).1) ∧
    (∀ e mark, WFG (gMoveAfter gNew e mark).1) ∧
    (∀ e mark, WFG (gMoveBefore gNew e mark).1) ∧
    (∀ e, WFG (gMoveToFront gNew e)) ∧
    (∀ e, WFG (gMoveToBack gNew e)) ∧
    (∀ other, WFG (gPushFrontList gNew other)) ∧
    (∀ other, WFG (gPushBackList gNew other)) :=
  general_list_invariant gNew ⟨[], gNew_wf⟩

/-- C5 counterexample to the claim as stated: `InsertAfter(9, mark)` with a
`mark` that has been removed from the list allocates a node (id `3`), sets
its `list` pointer to this list, and then fails, leaving in the quiescent
final state a non-sentinel node with `n.list == L` but nil `prev`/`next` —
so `n.prev.next == n` does not hold for it. -/
theorem insertAfter_foreign_mark_leaks :
    ((gInsertAfterPub (gRemovePub (gPushFront gNew 7).1 2).1 9 2).1.listOf 3
      = some 0) ∧
    ((gInsertAfterPub (gRemovePub (gPushFront gNew 7).1 2).1 9 2).1.prevF 3
      = none) ∧
    ((gInsertAfterPub (gRemovePub (gPushFront gNew 7).1 2).1 9 2).1.nextF 3
      = none) ∧
    fwdWalk (gInsertAfterPub (gRemovePub (gPushFront gNew 7).1 2).1 9 2).1
      = [] := by
  refine ⟨?_, ?_, ?_, ?_⟩ <;> decide

end GoConcurrent
